import Mathlib

/-!
# Write-through block cache (`cachedisk.c`)

A shallow embedding of the caching block store of `src/cachedisk.c` and a
verification development about it.

* C arrays (`metadata`, `ages`, `blocks`) are functions from slot index to value;
  every loop of the source is bounded by `nblocks`, and the one store whose index
  is not produced by such a loop (the index returned by `find_LRU_index`) is
  bounds-checked by the model and reported as `Result.fault` when it falls
  outside the arrays.
* `unsigned int` is modelled by `Nat` with explicit reduction modulo `2^32`, and the
  `int` that `find_LRU_index` returns by `Int`, with the conversion made explicit.
* `panic` is modelled by `Result.panic`, carrying the state at the point of
  the call.
-/

namespace CacheDisk

/-! ## Data model -/

/-- A block: the `BLOCK_SIZE` bytes of a `block_t`, copied wholesale by `memcpy`. -/
abbrev block_t := List Nat

/-- Modelled from the spec: the type `block_no` is declared in `block_store.h`, which
is not among the sources.  The spec makes a block address a non-negative integer;
it is an unsigned 32-bit integer here, so that the byte pattern `memset(.., -1, ..)`
writes in `cachedisk_init` is the value `2^32 - 1`. -/
abbrev block_no := Nat

/-- The range of `unsigned int`: `2^32`. -/
def UINT_RANGE : Nat := 4294967296

/-- The all-ones value `(block_no) -1` that `cachedisk_init` fills `metadata` with
and that the source compares against in `metadata[first_empty] == -1`. -/
def NO_BLOCK : block_no := 4294967295

/-- One call made on the block store below. -/
inductive dev_call where
  | rd (offset : block_no)
  | wr (offset : block_no) (block : block_t)
  deriving DecidableEq, Repr

/-- Modelled from the spec: the block store below (`block_store_t *below`), whose
code is not among the sources.  It stores one block per address and returns the
last block written to each address; `rd_ok` and `wr_ok` say at which addresses its
`read` and `write` return a non-negative status.  `calls` records every call
made on it, oldest first. -/
structure block_store_t where
  data : block_no → block_t
  rd_ok : block_no → Bool
  wr_ok : block_no → Bool
  calls : List dev_call

/-- Modelled from the spec: `(*below->read)(below, offset, block)`.  Returns the
status, the store and the caller's buffer after the call. -/
def block_store_t.read (b : block_store_t) (offset : block_no) (block : block_t) :
    Int × block_store_t × block_t :=
  if b.rd_ok offset then
    (0, { b with calls := b.calls ++ [dev_call.rd offset] }, b.data offset)
  else
    (-1, { b with calls := b.calls ++ [dev_call.rd offset] }, block)

/-- Modelled from the spec: `(*below->write)(below, offset, block)`.  Returns the
status and the store after the call; a failed write stores nothing. -/
def block_store_t.write (b : block_store_t) (offset : block_no) (block : block_t) :
    Int × block_store_t :=
  if b.wr_ok offset then
    (0, { b with data := Function.update b.data offset block,
                 calls := b.calls ++ [dev_call.wr offset block] })
  else
    (-1, { b with calls := b.calls ++ [dev_call.wr offset block] })

/-- The record `struct cachedisk_state`. -/
structure cachedisk_state where
  below : block_store_t
  blocks : Nat → block_t
  nblocks : Nat
  metadata : Nat → block_no
  ages : Nat → Nat
  read_hit : Nat
  read_miss : Nat
  write_hit : Nat
  write_miss : Nat

/-- How a call of `cachedisk_read` or `cachedisk_write` ends: it returns a status
(with the state and the caller's block buffer after the call), or it calls
`panic`, or it stores outside the `nblocks` entries of its arrays.  The last two
carry the state reached at that point. -/
inductive Result where
  | ret (status : Int) (cs : cachedisk_state) (block : block_t)
  | panic (cs : cachedisk_state)
  | fault (cs : cachedisk_state)

/-! ## Operations -/

/-- The increment `x ++` of an `unsigned int`. -/
def incr (x : Nat) : Nat := (x + 1) % UINT_RANGE

/-- The expression `cs->read_hit + cs->read_miss + cs->write_hit + cs->write_miss`,
evaluated on `unsigned int`. -/
def stamp (cs : cachedisk_state) : Nat :=
  (cs.read_hit + cs.read_miss + cs.write_hit + cs.write_miss) % UINT_RANGE

/-- The loop `for (i = ..; i < nblocks; i ++) if (metadata[i] == offset) break;`,
started at index `i` with `fuel = nblocks - i` iterations left.  Returns the
final value of the loop index and whether the loop was left by `break`. -/
def scan (metadata : Nat → block_no) (offset : block_no) (i : Nat) : Nat → Nat × Bool
  | 0 => (i, false)
  | fuel + 1 => if metadata i = offset then (i, true) else scan metadata offset (i + 1) fuel

/-- The traversal at the head of `cachedisk_read` and `cachedisk_write`: the pair
(`ind_in_metadata`, `hit`). -/
def lookup (cs : cachedisk_state) (offset : block_no) : Nat × Bool :=
  scan cs.metadata offset 0 cs.nblocks

/-- The search for an empty slot in the miss branch: the pair
(`first_empty`, `has_space`). -/
def find_empty (cs : cachedisk_state) : Nat × Bool :=
  scan cs.metadata NO_BLOCK 0 cs.nblocks

/-- The loop of `find_LRU_index`, at index `i` with current candidate `least` and
`fuel = nblocks - i` iterations left. -/
def find_LRU_loop (ages : Nat → Nat) (i least : Nat) : Nat → Nat
  | 0 => least
  | fuel + 1 => find_LRU_loop ages (i + 1) (if ages i < ages least then i else least) fuel

/-- The value of the local variable `least` of `find_LRU_index` when its loop ends. -/
def find_LRU_least (cs : cachedisk_state) : Nat :=
  find_LRU_loop cs.ages 1 0 (cs.nblocks - 1)

/-- The conversion of an `unsigned int` to `int`, as `return least;` performs it in a
function that returns `int`: a value up to `INT_MAX` is kept, a larger one comes out as
the negative number with the same 32 bits. -/
def to_int (x : Nat) : Int :=
  if x < 2147483648 then (x : Int) else ((x % 4294967296 : Nat) : Int) - 4294967296

/-- The function `find_LRU_index`, which returns `int`. -/
def find_LRU_index (cs : cachedisk_state) : Int :=
  to_int (find_LRU_least cs)

/-- The function `cachedisk_read`. -/
def cachedisk_read (cs : cachedisk_state) (offset : block_no) (block : block_t) : Result :=
  let ind_in_metadata := (lookup cs offset).1
  if (lookup cs offset).2 then
    let cs1 := { cs with read_hit := incr cs.read_hit }
    let out := cs1.blocks ind_in_metadata
    Result.ret 0 { cs1 with ages := Function.update cs1.ages ind_in_metadata (stamp cs1) } out
  else
    let cs1 := { cs with read_miss := incr cs.read_miss }
    let r := cs1.below.read offset block
    let cs2 := { cs1 with below := r.2.1 }
    if r.1 < 0 then Result.panic cs2
    else
      let out := r.2.2
      let first_empty := (find_empty cs2).1
      if (find_empty cs2).2 then
        Result.ret 0
          { cs2 with metadata := Function.update cs2.metadata first_empty offset,
                     blocks := Function.update cs2.blocks first_empty out,
                     ages := Function.update cs2.ages first_empty (stamp cs2) } out
      else
        let least := find_LRU_index cs2
        if 0 ≤ least ∧ least < (cs2.nblocks : Int) then
          Result.ret 0
            { cs2 with metadata := Function.update cs2.metadata least.toNat offset,
                       blocks := Function.update cs2.blocks least.toNat out,
                       ages := Function.update cs2.ages least.toNat (stamp cs2) } out
        else Result.fault cs2

/-- The function `cachedisk_write`. -/
def cachedisk_write (cs : cachedisk_state) (offset : block_no) (block : block_t) : Result :=
  let ind_in_metadata := (lookup cs offset).1
  if (lookup cs offset).2 then
    let cs1 := { cs with write_hit := incr cs.write_hit }
    let cs2 := { cs1 with blocks := Function.update cs1.blocks ind_in_metadata block }
    let r := cs2.below.write offset block
    let cs3 := { cs2 with below := r.2 }
    if r.1 < 0 then Result.panic cs3
    else
      Result.ret 0
        { cs3 with ages := Function.update cs3.ages ind_in_metadata (stamp cs3) } block
  else
    let cs1 := { cs with write_miss := incr cs.write_miss }
    let r := cs1.below.write offset block
    let cs2 := { cs1 with below := r.2 }
    if r.1 < 0 then Result.panic cs2
    else
      let first_empty := (find_empty cs2).1
      if (find_empty cs2).2 then
        Result.ret 0
          { cs2 with metadata := Function.update cs2.metadata first_empty offset,
                     blocks := Function.update cs2.blocks first_empty block,
                     ages := Function.update cs2.ages first_empty (stamp cs2) } block
      else
        let least := find_LRU_index cs2
        if 0 ≤ least ∧ least < (cs2.nblocks : Int) then
          Result.ret 0
            { cs2 with metadata := Function.update cs2.metadata least.toNat offset,
                       blocks := Function.update cs2.blocks least.toNat block,
                       ages := Function.update cs2.ages least.toNat (stamp cs2) } block
        else Result.fault cs2

/-- The function `cachedisk_init`: `calloc` zeroes the four counters and the two
`memset(.., -1, ..)` fill `metadata` and `ages` with the all-ones value.  `blocks`
is the caller's cache memory, whatever it holds. -/
def cachedisk_init (below : block_store_t) (blocks : Nat → block_t) (nblocks : Nat) :
    cachedisk_state :=
  { below := below, blocks := blocks, nblocks := nblocks,
    metadata := fun _ => NO_BLOCK, ages := fun _ => 4294967295,
    read_hit := 0, read_miss := 0, write_hit := 0, write_miss := 0 }

/-! ## Sequences of calls -/

/-- A request made to the cache: a read into the caller's buffer `block`, or a
write of `block`. -/
inductive Op where
  | read (offset : block_no) (block : block_t)
  | write (offset : block_no) (block : block_t)
  deriving DecidableEq, Repr

/-- The address a request names. -/
def Op.offset : Op → block_no
  | Op.read a _ => a
  | Op.write a _ => a

/-- One request, dispatched as the `read` and `write` members of the block store
interface are. -/
def step (cs : cachedisk_state) : Op → Result
  | Op.read a b => cachedisk_read cs a b
  | Op.write a b => cachedisk_write cs a b

/-- Runs the requests in order; `some` of the final state when every call
returned, `none` as soon as one call did not return. -/
def run (cs : cachedisk_state) : List Op → Option cachedisk_state
  | [] => some cs
  | op :: ops =>
    match step cs op with
    | Result.ret _ cs1 _ => run cs1 ops
    | _ => none

/-! ## Observations on outcomes and states -/

/-- The state an outcome carries. -/
def Result.cs : Result → cachedisk_state
  | Result.ret _ cs _ => cs
  | Result.panic cs => cs
  | Result.fault cs => cs

/-- The block handed back to the caller, when the call returned. -/
def Result.out : Result → Option block_t
  | Result.ret _ _ b => some b
  | _ => none

/-- The four statistics, in the order `cachedisk_dump_stats` prints them:
read hits, read misses, write hits, write misses. -/
def stats (cs : cachedisk_state) : Nat × Nat × Nat × Nat :=
  (cs.read_hit, cs.read_miss, cs.write_hit, cs.write_miss)

/-- The addresses the slots are bound to, slot 0 first. -/
def bindings (cs : cachedisk_state) : List block_no :=
  (List.range cs.nblocks).map cs.metadata

/-- The recency values of the slots, slot 0 first. -/
def recencies (cs : cachedisk_state) : List Nat :=
  (List.range cs.nblocks).map cs.ages

/-- The cached blocks, slot 0 first. -/
def contents (cs : cachedisk_state) : List block_t :=
  (List.range cs.nblocks).map cs.blocks

/-- The block a read of `a` hands back after the requests `ops` have all returned. -/
def read_after (cs : cachedisk_state) (ops : List Op) (a : block_no) : Option block_t :=
  match run cs ops with
  | some s => (cachedisk_read s a []).out
  | none => none

/-- A block store that accepts every read and write, holding `data`. -/
def ideal_store (data : block_no → block_t) : block_store_t :=
  { data := data, rd_ok := fun _ => true, wr_ok := fun _ => true, calls := [] }

/-- The slot a miss stores into: the first empty slot, else the one
`find_LRU_index` returns (slot 0 stands in when that number is negative, in which case
nothing is stored, see `can_store`). -/
def victim (cs : cachedisk_state) : Nat :=
  if (find_empty cs).2 then (find_empty cs).1 else (find_LRU_index cs).toNat

/-- A miss finds a slot of the arrays to store into: an empty slot, or else the number
`find_LRU_index` returns is the index of a slot. -/
def can_store (cs : cachedisk_state) : Bool :=
  (find_empty cs).2 ||
    decide (0 ≤ find_LRU_index cs ∧ find_LRU_index cs < (cs.nblocks : Int))

/-- Slot `i` is occupied: it is bound to an address, not to the empty marker. -/
def occupied (cs : cachedisk_state) (i : Nat) : Prop :=
  i < cs.nblocks ∧ cs.metadata i ≠ NO_BLOCK

/-- No two occupied slots are bound to the same address. -/
def no_duplicate (cs : cachedisk_state) : Prop :=
  ∀ i j, occupied cs i → occupied cs j → cs.metadata i = cs.metadata j → i = j

/-- Every occupied slot holds the block the store below has at the slot's address. -/
def coherent (cs : cachedisk_state) : Prop :=
  ∀ i, occupied cs i → cs.blocks i = cs.below.data (cs.metadata i)

/-- The three statements that bind slot `i` to `offset`:
`metadata[i] = offset; memcpy(&blocks[i], block, BLOCK_SIZE); ages[i] = ...;`. -/
def fill_slot (cs : cachedisk_state) (i : Nat) (offset : block_no) (block : block_t) :
    cachedisk_state :=
  { cs with metadata := Function.update cs.metadata i offset,
            blocks := Function.update cs.blocks i block,
            ages := Function.update cs.ages i (stamp cs) }

/-- The tail of the two miss branches, once the store below has answered: bind the
slot `victim` to the block, unless that slot lies outside the arrays. -/
def insert_block (cs : cachedisk_state) (offset : block_no) (block : block_t) : Result :=
  if can_store cs then Result.ret 0 (fill_slot cs (victim cs) offset block) block
  else Result.fault cs

/-- The state of a read once `read_miss` is counted and the store below was read. -/
def after_dev_read (cs : cachedisk_state) (offset : block_no) : cachedisk_state :=
  { cs with read_miss := incr cs.read_miss,
            below := { cs.below with calls := cs.below.calls ++ [dev_call.rd offset] } }

/-- The state of a write miss once `write_miss` is counted and the store below
has accepted the block. -/
def after_dev_write (cs : cachedisk_state) (offset : block_no) (block : block_t) :
    cachedisk_state :=
  { cs with write_miss := incr cs.write_miss,
            below := { cs.below with data := Function.update cs.below.data offset block,
                                     calls := cs.below.calls ++ [dev_call.wr offset block] } }

/-- The state a read hit on slot `i` returns. -/
def after_read_hit (cs : cachedisk_state) (i : Nat) : cachedisk_state :=
  { cs with read_hit := incr cs.read_hit,
            ages := Function.update cs.ages i
              (stamp { cs with read_hit := incr cs.read_hit }) }

/-- The state a write hit on slot `i` returns when the store below accepts the block. -/
def after_write_hit (cs : cachedisk_state) (i : Nat) (offset : block_no) (block : block_t) :
    cachedisk_state :=
  { cs with write_hit := incr cs.write_hit,
            blocks := Function.update cs.blocks i block,
            below := { cs.below with data := Function.update cs.below.data offset block,
                                     calls := cs.below.calls ++ [dev_call.wr offset block] },
            ages := Function.update cs.ages i
              (stamp { cs with write_hit := incr cs.write_hit }) }

/-- A fresh cache of `nblocks` slots over zero-filled cache memory and an ideal
store holding empty blocks. -/
def fresh (nblocks : Nat) : cachedisk_state :=
  cachedisk_init (ideal_store (fun _ => [])) (fun _ => []) nblocks

/-- The state after the requests `ops`, or the starting state when one of them
did not return. -/
def state_after (cs : cachedisk_state) (ops : List Op) : cachedisk_state :=
  (run cs ops).getD cs

/-- The requests of the two-slot scenario: `write(0, "A")`, `write(1, "B")`, `read(0)`,
`write(2, "C")`, `read(1)`, `read(0)`, the blocks being the one-byte strings. -/
def scenario : List Op :=
  [Op.write 0 [65], Op.write 1 [66], Op.read 0 [], Op.write 2 [67], Op.read 1 [], Op.read 0 []]

/-- What the scenario looks at after each request: the four statistics and the
addresses bound to the slots. -/
def observe (cs : cachedisk_state) : (Nat × Nat × Nat × Nat) × List block_no :=
  (stats cs, bindings cs)

/-- How many of the requests are reads. -/
def num_reads : List Op → Nat
  | [] => 0
  | Op.read _ _ :: ops => num_reads ops + 1
  | Op.write _ _ :: ops => num_reads ops

/-- How many of the requests are writes. -/
def num_writes : List Op → Nat
  | [] => 0
  | Op.read _ _ :: ops => num_writes ops
  | Op.write _ _ :: ops => num_writes ops + 1

/-- The ordinal number (the first request is number 1) of the last request of `ops`
that names address `a`, read or write; 0 when no request names it. -/
def last_access : List Op → block_no → Nat
  | [], _ => 0
  | op :: ops, a =>
    if last_access ops a = 0 then (if op.offset = a then 1 else 0)
    else last_access ops a + 1

/-- The recency bookkeeping after the requests `ops`: the counters sum to the number
of requests modulo `2^32`, and every occupied slot carries, modulo `2^32`, the ordinal
number of the last request that named its address. -/
def stamped (ops : List Op) (cs : cachedisk_state) : Prop :=
  stamp cs = ops.length % UINT_RANGE ∧
  ∀ i, occupied cs i →
    last_access ops (cs.metadata i) ≠ 0 ∧
    cs.ages i = last_access ops (cs.metadata i) % UINT_RANGE

/-- A run of `2^32` requests on two slots: `write(0, "A")`, `write(1, "B")`, then
`2^32 - 2` reads of address 0. -/
def wrap_ops : List Op :=
  [Op.write 0 [65], Op.write 1 [66]] ++ List.replicate 4294967294 (Op.read 0 [])

/-- The slot a request that returns has stored into: the slot the traversal finds, else
the slot `victim`. -/
def target (cs : cachedisk_state) (op : Op) : Nat :=
  if (lookup cs op.offset).2 then (lookup cs op.offset).1 else victim cs

/-- The index at which a request assigns to `metadata`, `blocks` and `ages`, as the
code holds it: the `unsigned int` index of the traversal or of the search for an empty
slot, else the `int least` that `find_LRU_index` returned. -/
def store_index (cs : cachedisk_state) (op : Op) : Int :=
  if (lookup cs op.offset).2 then ((lookup cs op.offset).1 : Int)
  else if (find_empty cs).2 then ((find_empty cs).1 : Int)
  else find_LRU_index cs

/-- The value a request has stored in `ages`, read back from the slot it stored into;
`none` when the request did not return. -/
def stored_stamp (cs : cachedisk_state) (op : Op) : Option Nat :=
  match step cs op with
  | Result.ret _ s1 _ => some (s1.ages (target cs op))
  | _ => none

/-- The values the requests of a run have stored in `ages`, oldest first (up to the
first request that does not return). -/
def stamp_log (cs : cachedisk_state) : List Op → List Nat
  | [] => []
  | op :: ops =>
    match step cs op with
    | Result.ret _ s1 _ => s1.ages (target cs op) :: stamp_log s1 ops
    | _ => []

/-- The slots the requests of a run have stored into, oldest first (up to the first
request that does not return). -/
def touch_log (cs : cachedisk_state) : List Op → List Nat
  | [] => []
  | op :: ops =>
    match step cs op with
    | Result.ret _ s1 _ => target cs op :: touch_log s1 ops
    | _ => []

/-- The ordinal number (the first entry is number 1) of the last entry of `l` equal
to `i`; 0 when there is none. -/
def last_index : List Nat → Nat → Nat
  | [], _ => 0
  | x :: l, i =>
    if last_index l i = 0 then (if x = i then 1 else 0)
    else last_index l i + 1

/-- The ordinal number of the last request of the run `ops` from `cs` that stored into
slot `i`; 0 when none did. -/
def last_touch (cs : cachedisk_state) (ops : List Op) (i : Nat) : Nat :=
  last_index (touch_log cs ops) i

/-- Runs the requests in order and collects the blocks the reads hand back, oldest
first; `none` as soon as one call does not return. -/
def run_reads (cs : cachedisk_state) : List Op → Option (cachedisk_state × List block_t)
  | [] => some (cs, [])
  | Op.read a b :: ops =>
    match cachedisk_read cs a b with
    | Result.ret _ s1 out =>
      match run_reads s1 ops with
      | some (s, outs) => some (s, out :: outs)
      | none => none
    | _ => none
  | Op.write a b :: ops =>
    match cachedisk_write cs a b with
    | Result.ret _ s1 _ => run_reads s1 ops
    | _ => none

/-- The same requests made on the store directly, without the cache, as the spec
describes a device: a write replaces the block at its address, a read hands back the
last block written there.  Returns the final contents and the blocks the reads hand
back, oldest first. -/
def direct_run (data : block_no → block_t) : List Op → (block_no → block_t) × List block_t
  | [] => (data, [])
  | Op.read a _ :: ops => ((direct_run data ops).1, data a :: (direct_run data ops).2)
  | Op.write a b :: ops => direct_run (Function.update data a b) ops

/-- A store holding empty blocks that answers every read and refuses every write. -/
def readonly_store : block_store_t :=
  { data := fun _ => [], rd_ok := fun _ => true, wr_ok := fun _ => false, calls := [] }

/-- The first `2^32 - 1` requests of `wrap_ops`. -/
def wrap_pre : List Op :=
  [Op.write 0 [65], Op.write 1 [66]] ++ List.replicate 4294967293 (Op.read 0 [])

/-- The call ended in `panic`. -/
def Result.panicked : Result → Bool
  | Result.panic _ => true
  | _ => false

/-- The call stored outside its arrays. -/
def Result.faulted : Result → Bool
  | Result.fault _ => true
  | _ => false

/-- The number of occupied slots. -/
def num_occupied (cs : cachedisk_state) : Nat :=
  ((List.range cs.nblocks).filter (fun i => decide (cs.metadata i ≠ NO_BLOCK))).length

/-- The recency bookkeeping in terms of the slots stored into, `log` listing the slot
of each request so far: the counters sum to the number of requests modulo `2^32`, and
every occupied slot carries, modulo `2^32`, the ordinal number of the last request
that stored into it. -/
def touched (log : List Nat) (cs : cachedisk_state) : Prop :=
  stamp cs = log.length % UINT_RANGE ∧
  ∀ i, occupied cs i →
    last_index log i ≠ 0 ∧ cs.ages i = last_index log i % UINT_RANGE

/-- A full cache of `2^31 + 1` slots, slot `i` bound to address `i`, whose least
recently used slot is the last one, slot `2^31` (recency 1, all others 2). -/
def huge_state : cachedisk_state :=
  { below := ideal_store (fun _ => []), blocks := fun _ => [], nblocks := 2147483649,
    metadata := fun i => i, ages := fun i => if i = 2147483648 then 1 else 2,
    read_hit := 0, read_miss := 0, write_hit := 0, write_miss := 0 }

/-! ## The two loops -/

theorem scan_spec (md : Nat → block_no) (a : block_no) : ∀ (fuel i : Nat),
    ((scan md a i fuel).2 = true →
      i ≤ (scan md a i fuel).1 ∧ (scan md a i fuel).1 < i + fuel ∧
      md (scan md a i fuel).1 = a ∧ ∀ j, i ≤ j → j < (scan md a i fuel).1 → md j ≠ a) ∧
    ((scan md a i fuel).2 = false →
      (scan md a i fuel).1 = i + fuel ∧ ∀ j, i ≤ j → j < i + fuel → md j ≠ a) := by
  intro fuel
  induction fuel with
  | zero =>
    intro i
    refine ⟨fun h => by simp [scan] at h, fun _ => ⟨by simp [scan], ?_⟩⟩
    intro j h1 h2
    omega
  | succ n ih =>
    intro i
    by_cases hi : md i = a
    · have e : scan md a i (n + 1) = (i, true) := by simp [scan, hi]
      rw [e]
      refine ⟨fun _ => ⟨le_refl _, by omega, hi, ?_⟩, fun h => by simp at h⟩
      intro j h1 h2
      simp only at h2
      omega
    · have e : scan md a i (n + 1) = scan md a (i + 1) n := by simp [scan, hi]
      rw [e]
      obtain ⟨h1, h2⟩ := ih (i + 1)
      constructor
      · intro h
        obtain ⟨a1, a2, a3, a4⟩ := h1 h
        refine ⟨by omega, by omega, a3, ?_⟩
        intro j hj1 hj2
        by_cases hji : j = i
        · subst hji
          exact hi
        · exact a4 j (by omega) hj2
      · intro h
        obtain ⟨a1, a2⟩ := h2 h
        refine ⟨by omega, ?_⟩
        intro j hj1 hj2
        by_cases hji : j = i
        · subst hji
          exact hi
        · exact a2 j (by omega) (by omega)

theorem lookup_hit {cs : cachedisk_state} {a : block_no} (h : (lookup cs a).2 = true) :
    (lookup cs a).1 < cs.nblocks ∧ cs.metadata (lookup cs a).1 = a ∧
      ∀ j, j < (lookup cs a).1 → cs.metadata j ≠ a := by
  obtain ⟨_, h2, h3, h4⟩ := (scan_spec cs.metadata a cs.nblocks 0).1 h
  exact ⟨by simpa [lookup] using h2, h3, fun j hj => h4 j (Nat.zero_le _) hj⟩

theorem lookup_miss {cs : cachedisk_state} {a : block_no} (h : (lookup cs a).2 = false) :
    ∀ j, j < cs.nblocks → cs.metadata j ≠ a := by
  obtain ⟨_, h2⟩ := (scan_spec cs.metadata a cs.nblocks 0).2 h
  exact fun j hj => h2 j (Nat.zero_le _) (by simpa using hj)

theorem lookup_eq_of_first {cs : cachedisk_state} {a : block_no} {i : Nat}
    (hi : i < cs.nblocks) (hm : cs.metadata i = a) (hf : ∀ j, j < i → cs.metadata j ≠ a) :
    lookup cs a = (i, true) := by
  cases hb : (lookup cs a).2 with
  | false => exact absurd hm (lookup_miss hb i hi)
  | true =>
    obtain ⟨h1, h2, h3⟩ := lookup_hit hb
    have e : (lookup cs a).1 = i := by
      rcases Nat.lt_trichotomy (lookup cs a).1 i with h | h | h
      · exact absurd h2 (hf _ h)
      · exact h
      · exact absurd hm (h3 i h)
    exact Prod.ext e hb

theorem find_empty_eq_lookup (cs : cachedisk_state) : find_empty cs = lookup cs NO_BLOCK := rfl

theorem find_LRU_loop_spec (ages : Nat → Nat) : ∀ (fuel i least : Nat), least < i →
    (find_LRU_loop ages i least fuel < i + fuel) ∧
    (ages (find_LRU_loop ages i least fuel) ≤ ages least) ∧
    (∀ j, i ≤ j → j < i + fuel → ages (find_LRU_loop ages i least fuel) ≤ ages j) ∧
    (find_LRU_loop ages i least fuel = least ∨
      (i ≤ find_LRU_loop ages i least fuel ∧
        ages (find_LRU_loop ages i least fuel) < ages least)) ∧
    (∀ j, j < find_LRU_loop ages i least fuel → (j = least ∨ i ≤ j) →
      ages (find_LRU_loop ages i least fuel) < ages j) := by
  intro fuel
  induction fuel with
  | zero =>
    intro i least hl
    refine ⟨by simpa [find_LRU_loop] using hl, by simp [find_LRU_loop], ?_,
      by simp [find_LRU_loop], ?_⟩
    · intro j h1 h2
      omega
    · intro j h1 h2
      simp only [find_LRU_loop] at h1
      omega
  | succ n ih =>
    intro i least hl
    by_cases hlt : ages i < ages least
    · have e : find_LRU_loop ages i least (n + 1) = find_LRU_loop ages (i + 1) i n := by
        simp [find_LRU_loop, hlt]
      rw [e]
      obtain ⟨h1, h2, h3, h4, h5⟩ := ih (i + 1) i (by omega)
      refine ⟨by omega, by omega, ?_, ?_, ?_⟩
      · intro j hj1 hj2
        by_cases hji : j = i
        · subst hji
          exact h2
        · exact h3 j (by omega) (by omega)
      · right
        rcases h4 with h | h
        · rw [h]
          exact ⟨le_refl _, hlt⟩
        · exact ⟨by omega, by omega⟩
      · intro j hj1 hj2
        rcases hj2 with hj2 | hj2
        · subst hj2
          omega
        · by_cases hji : j = i
          · exact h5 j hj1 (Or.inl hji)
          · exact h5 j hj1 (Or.inr (by omega))
    · have e : find_LRU_loop ages i least (n + 1) = find_LRU_loop ages (i + 1) least n := by
        simp [find_LRU_loop, hlt]
      rw [e]
      obtain ⟨h1, h2, h3, h4, h5⟩ := ih (i + 1) least (by omega)
      refine ⟨by omega, h2, ?_, ?_, ?_⟩
      · intro j hj1 hj2
        by_cases hji : j = i
        · subst hji
          omega
        · exact h3 j (by omega) (by omega)
      · rcases h4 with h | h
        · exact Or.inl h
        · exact Or.inr ⟨by omega, h.2⟩
      · intro j hj1 hj2
        rcases hj2 with hj2 | hj2
        · exact h5 j hj1 (Or.inl hj2)
        · by_cases hji : j = i
          · subst hji
            rcases h4 with h | h
            · rw [h] at hj1
              omega
            · omega
          · exact h5 j hj1 (Or.inr (by omega))

theorem find_LRU_least_spec (cs : cachedisk_state) (h : 0 < cs.nblocks) :
    find_LRU_least cs < cs.nblocks ∧
    (∀ j, j < cs.nblocks → cs.ages (find_LRU_least cs) ≤ cs.ages j) ∧
    (∀ j, j < find_LRU_least cs → cs.ages (find_LRU_least cs) < cs.ages j) := by
  obtain ⟨h1, h2, h3, h4, h5⟩ := find_LRU_loop_spec cs.ages (cs.nblocks - 1) 1 0 (by omega)
  refine ⟨by unfold find_LRU_least; omega, ?_, ?_⟩
  · intro j hj
    by_cases hj0 : j = 0
    · subst hj0
      exact h2
    · exact h3 j (by omega) (by omega)
  · intro j hj
    exact h5 j hj (by omega)

/-! ## The conversion of the index to `int` -/

theorem to_int_of_lt {x : Nat} (h : x < 2147483648) : to_int x = (x : Int) := by
  unfold to_int
  rw [if_pos h]

theorem to_int_neg {x : Nat} (h : 2147483648 ≤ x) : to_int x < 0 := by
  unfold to_int
  rw [if_neg (by omega)]
  omega

/-- The number `find_LRU_index` returns is the index of a slot exactly when there is
a slot and the index found by the loop is at most `INT_MAX`. -/
theorem lru_in_range_iff (cs : cachedisk_state) :
    (0 ≤ find_LRU_index cs ∧ find_LRU_index cs < (cs.nblocks : Int)) ↔
      (0 < cs.nblocks ∧ find_LRU_least cs < 2147483648) := by
  unfold find_LRU_index
  by_cases hlt : find_LRU_least cs < 2147483648
  · rw [to_int_of_lt hlt]
    constructor
    · rintro ⟨_, h2⟩
      exact ⟨by omega, hlt⟩
    · rintro ⟨h1, _⟩
      have := (find_LRU_least_spec cs h1).1
      exact ⟨by omega, by omega⟩
  · have := to_int_neg (Nat.le_of_not_lt hlt)
    constructor
    · rintro ⟨h1, _⟩
      omega
    · rintro ⟨_, h2⟩
      exact absurd h2 hlt

theorem lru_toNat (cs : cachedisk_state) (h : find_LRU_least cs < 2147483648) :
    (find_LRU_index cs).toNat = find_LRU_least cs := by
  unfold find_LRU_index
  rw [to_int_of_lt h]
  exact Int.toNat_natCast _

/-- With between 1 and `2^31` slots the number `find_LRU_index` returns is the index
found by its loop. -/
theorem find_LRU_index_of_bounds (cs : cachedisk_state) (h1 : 0 < cs.nblocks)
    (h2 : cs.nblocks ≤ 2147483648) :
    find_LRU_index cs = (find_LRU_least cs : Int) := by
  unfold find_LRU_index
  exact to_int_of_lt (by have := (find_LRU_least_spec cs h1).1; omega)

/-! ## The four branches of the two operations -/

theorem can_store_iff (cs : cachedisk_state) :
    can_store cs = true ↔
      ((find_empty cs).2 = true ∨ (0 < cs.nblocks ∧ find_LRU_least cs < 2147483648)) := by
  unfold can_store
  rw [Bool.or_eq_true, decide_eq_true_iff, lru_in_range_iff]

theorem victim_lt_of_pos (cs : cachedisk_state) (h : 0 < cs.nblocks) :
    victim cs < cs.nblocks := by
  unfold victim
  split
  · rename_i he
    rw [find_empty_eq_lookup] at he ⊢
    exact (lookup_hit he).1
  · by_cases hlt : find_LRU_least cs < 2147483648
    · rw [lru_toNat cs hlt]
      exact (find_LRU_least_spec cs h).1
    · have hneg : find_LRU_index cs < 0 := to_int_neg (Nat.le_of_not_lt hlt)
      have : (find_LRU_index cs).toNat = 0 := Int.toNat_eq_zero.mpr (by omega)
      rw [this]
      exact h

theorem victim_lt_iff (cs : cachedisk_state) : victim cs < cs.nblocks ↔ 0 < cs.nblocks :=
  ⟨fun h => by omega, victim_lt_of_pos cs⟩

theorem victim_lt_of_can_store (cs : cachedisk_state) (h : can_store cs = true) :
    victim cs < cs.nblocks := by
  apply victim_lt_of_pos
  rcases (can_store_iff cs).mp h with he | ⟨hp, _⟩
  · rw [find_empty_eq_lookup] at he
    have := (lookup_hit he).1
    omega
  · exact hp

theorem can_store_of_bounds (cs : cachedisk_state) (h1 : 0 < cs.nblocks)
    (h2 : cs.nblocks ≤ 2147483648) : can_store cs = true := by
  rw [can_store_iff]
  right
  exact ⟨h1, by have := (find_LRU_least_spec cs h1).1; omega⟩

theorem read_hit_eq {cs : cachedisk_state} {a : block_no} (buf : block_t)
    (h : (lookup cs a).2 = true) :
    cachedisk_read cs a buf
      = Result.ret 0 (after_read_hit cs (lookup cs a).1) (cs.blocks (lookup cs a).1) := by
  simp [cachedisk_read, h, after_read_hit]

theorem read_miss_fail_eq {cs : cachedisk_state} {a : block_no} (buf : block_t)
    (h : (lookup cs a).2 = false) (hd : cs.below.rd_ok a = false) :
    cachedisk_read cs a buf = Result.panic (after_dev_read cs a) := by
  simp [cachedisk_read, h, block_store_t.read, hd, after_dev_read]

theorem read_miss_ok_eq {cs : cachedisk_state} {a : block_no} (buf : block_t)
    (h : (lookup cs a).2 = false) (hd : cs.below.rd_ok a = true) :
    cachedisk_read cs a buf = insert_block (after_dev_read cs a) a (cs.below.data a) := by
  simp only [cachedisk_read, h, block_store_t.read, hd, insert_block, victim, can_store,
    find_empty, find_LRU_index, find_LRU_least, after_dev_read, fill_slot]
  by_cases he : (scan cs.metadata NO_BLOCK 0 cs.nblocks).2 = true
  · simp [he]
  · simp [he]

theorem write_hit_fail_eq {cs : cachedisk_state} {a : block_no} (v : block_t)
    (h : (lookup cs a).2 = true) (hd : cs.below.wr_ok a = false) :
    cachedisk_write cs a v
      = Result.panic { cs with write_hit := incr cs.write_hit,
                               blocks := Function.update cs.blocks (lookup cs a).1 v,
                               below := { cs.below with
                                 calls := cs.below.calls ++ [dev_call.wr a v] } } := by
  simp [cachedisk_write, h, block_store_t.write, hd]

theorem write_hit_ok_eq {cs : cachedisk_state} {a : block_no} (v : block_t)
    (h : (lookup cs a).2 = true) (hd : cs.below.wr_ok a = true) :
    cachedisk_write cs a v = Result.ret 0 (after_write_hit cs (lookup cs a).1 a v) v := by
  simp [cachedisk_write, h, block_store_t.write, hd, after_write_hit, stamp]

theorem write_miss_fail_eq {cs : cachedisk_state} {a : block_no} (v : block_t)
    (h : (lookup cs a).2 = false) (hd : cs.below.wr_ok a = false) :
    cachedisk_write cs a v
      = Result.panic { cs with write_miss := incr cs.write_miss,
                               below := { cs.below with
                                 calls := cs.below.calls ++ [dev_call.wr a v] } } := by
  simp [cachedisk_write, h, block_store_t.write, hd]

theorem write_miss_ok_eq {cs : cachedisk_state} {a : block_no} (v : block_t)
    (h : (lookup cs a).2 = false) (hd : cs.below.wr_ok a = true) :
    cachedisk_write cs a v = insert_block (after_dev_write cs a v) a v := by
  simp only [cachedisk_write, h, block_store_t.write, hd, insert_block, victim, can_store,
    find_empty, find_LRU_index, find_LRU_least, after_dev_write, fill_slot]
  by_cases he : (scan cs.metadata NO_BLOCK 0 cs.nblocks).2 = true
  · simp [he]
  · simp [he]

theorem victim_after_dev_read (cs : cachedisk_state) (a : block_no) :
    victim (after_dev_read cs a) = victim cs := rfl

theorem victim_after_dev_write (cs : cachedisk_state) (a : block_no) (v : block_t) :
    victim (after_dev_write cs a v) = victim cs := rfl

theorem insert_block_ret {cs : cachedisk_state} {a : block_no} {v : block_t} {st : Int}
    {s1 : cachedisk_state} {out : block_t} (h : insert_block cs a v = Result.ret st s1 out) :
    st = 0 ∧ out = v ∧ victim cs < cs.nblocks ∧ s1 = fill_slot cs (victim cs) a v := by
  unfold insert_block at h
  split at h
  · rename_i hv
    injection h with h1 h2 h3
    exact ⟨h1.symm, h3.symm, victim_lt_of_can_store cs hv, h2.symm⟩
  · cases h

theorem insert_block_can_store {cs : cachedisk_state} {a : block_no} {v : block_t}
    {st : Int} {s1 : cachedisk_state} {out : block_t}
    (h : insert_block cs a v = Result.ret st s1 out) : can_store cs = true := by
  unfold insert_block at h
  split at h
  · rename_i hv
    exact hv
  · cases h

theorem read_ret_cases {cs : cachedisk_state} {a : block_no} {buf : block_t} {st : Int}
    {s1 : cachedisk_state} {out : block_t} (h : cachedisk_read cs a buf = Result.ret st s1 out) :
    st = 0 ∧
    (((lookup cs a).2 = true ∧ s1 = after_read_hit cs (lookup cs a).1 ∧
        out = cs.blocks (lookup cs a).1) ∨
     ((lookup cs a).2 = false ∧ cs.below.rd_ok a = true ∧ victim cs < cs.nblocks ∧
        s1 = fill_slot (after_dev_read cs a) (victim cs) a (cs.below.data a) ∧
        out = cs.below.data a)) := by
  cases hl : (lookup cs a).2 with
  | true =>
    rw [read_hit_eq buf hl] at h
    injection h with h1 h2 h3
    exact ⟨h1.symm, Or.inl ⟨rfl, h2.symm, h3.symm⟩⟩
  | false =>
    cases hd : cs.below.rd_ok a with
    | false =>
      rw [read_miss_fail_eq buf hl hd] at h
      cases h
    | true =>
      rw [read_miss_ok_eq buf hl hd] at h
      obtain ⟨h1, h2, h3, h4⟩ := insert_block_ret h
      exact ⟨h1, Or.inr ⟨rfl, rfl, h3, h4, h2⟩⟩

theorem write_ret_cases {cs : cachedisk_state} {a : block_no} {v : block_t} {st : Int}
    {s1 : cachedisk_state} {out : block_t} (h : cachedisk_write cs a v = Result.ret st s1 out) :
    st = 0 ∧ out = v ∧ cs.below.wr_ok a = true ∧
    (((lookup cs a).2 = true ∧ s1 = after_write_hit cs (lookup cs a).1 a v) ∨
     ((lookup cs a).2 = false ∧ victim cs < cs.nblocks ∧
        s1 = fill_slot (after_dev_write cs a v) (victim cs) a v)) := by
  cases hd : cs.below.wr_ok a with
  | false =>
    cases hl : (lookup cs a).2 with
    | true =>
      rw [write_hit_fail_eq v hl hd] at h
      cases h
    | false =>
      rw [write_miss_fail_eq v hl hd] at h
      cases h
  | true =>
    cases hl : (lookup cs a).2 with
    | true =>
      rw [write_hit_ok_eq v hl hd] at h
      injection h with h1 h2 h3
      exact ⟨h1.symm, h3.symm, rfl, Or.inl ⟨rfl, h2.symm⟩⟩
    | false =>
      rw [write_miss_ok_eq v hl hd] at h
      obtain ⟨h1, h2, h3, h4⟩ := insert_block_ret h
      exact ⟨h1, h2, rfl, Or.inr ⟨rfl, h3, h4⟩⟩

/-- A miss that returns has found a slot of the arrays to store into. -/
theorem step_can_store {cs s1 : cachedisk_state} {op : Op} {st : Int} {out : block_t}
    (hmiss : (lookup cs op.offset).2 = false)
    (h : step cs op = Result.ret st s1 out) : can_store cs = true := by
  cases op with
  | read a b =>
    have hl : (lookup cs a).2 = false := hmiss
    have h1 : cachedisk_read cs a b = Result.ret st s1 out := h
    obtain ⟨_, h4⟩ := read_ret_cases h1
    rcases h4 with ⟨hh, _, _⟩ | ⟨_, hd, _, _, _⟩
    · rw [hl] at hh
      cases hh
    · rw [read_miss_ok_eq b hl hd] at h1
      have hc : can_store (after_dev_read cs a) = true := insert_block_can_store h1
      exact hc
  | write a b =>
    have hl : (lookup cs a).2 = false := hmiss
    have h1 : cachedisk_write cs a b = Result.ret st s1 out := h
    obtain ⟨_, _, hd, _⟩ := write_ret_cases h1
    rw [write_miss_ok_eq b hl hd] at h1
    have hc : can_store (after_dev_write cs a b) = true := insert_block_can_store h1
    exact hc

/-- When no slot is empty and a slot can be stored into, `victim` is the index found by
the loop of `find_LRU_index`, and it is the number `find_LRU_index` returns. -/
theorem victim_of_full {cs : cachedisk_state}
    (hfull : ∀ i, i < cs.nblocks → cs.metadata i ≠ NO_BLOCK) (hcan : can_store cs = true) :
    victim cs = find_LRU_least cs ∧ ((victim cs : Nat) : Int) = find_LRU_index cs := by
  have he : (find_empty cs).2 = false := by
    cases hb : (find_empty cs).2 with
    | false => rfl
    | true =>
      rw [find_empty_eq_lookup] at hb
      obtain ⟨l1, l2, _⟩ := lookup_hit hb
      exact absurd l2 (hfull _ l1)
  rcases (can_store_iff cs).mp hcan with h | ⟨_, hlt⟩
  · rw [he] at h
    cases h
  · have hv : victim cs = find_LRU_least cs := by
      unfold victim
      rw [he]
      simp only [Bool.false_eq_true, if_false]
      exact lru_toNat cs hlt
    refine ⟨hv, ?_⟩
    rw [hv]
    unfold find_LRU_index
    rw [to_int_of_lt hlt]

/-- After slot `k` was bound to `a` on a miss, the traversal finds `a` in slot `k`. -/
theorem lookup_fill_slot {cs : cachedisk_state} {a : block_no} (v : block_t) {k : Nat}
    (hk : k < cs.nblocks) (hm : ∀ j, j < cs.nblocks → cs.metadata j ≠ a) :
    lookup (fill_slot cs k a v) a = (k, true) := by
  apply lookup_eq_of_first
  · exact hk
  · simp [fill_slot]
  · intro j hj
    have : j ≠ k := by omega
    simp only [fill_slot, ne_eq, this, not_false_eq_true, Function.update_noteq]
    exact hm j (by omega)

/-! ## Effects on the store below -/

/-- C9. Every `cachedisk_write` of block `V` at address `A` that returns, on a hit as
on a miss, has made exactly one call on the store below, the write of `V` at `A`;
afterwards the store holds `V` at `A`, every other address of the store is unchanged,
and the status returned is 0. -/
theorem write_reaches_device (cs : cachedisk_state) (A : block_no) (V : block_t) (st : Int)
    (s1 : cachedisk_state) (out : block_t)
    (h : cachedisk_write cs A V = Result.ret st s1 out) :
    st = 0 ∧
    s1.below.calls = cs.below.calls ++ [dev_call.wr A V] ∧
    s1.below.data A = V ∧
    (∀ a, a ≠ A → s1.below.data a = cs.below.data a) := by
  obtain ⟨h1, _, _, h4⟩ := write_ret_cases h
  rcases h4 with ⟨_, rfl⟩ | ⟨_, _, rfl⟩
  · refine ⟨h1, rfl, by simp [after_write_hit], ?_⟩
    intro a ha
    simp [after_write_hit, Function.update_noteq ha]
  · refine ⟨h1, rfl, by simp [fill_slot, after_dev_write], ?_⟩
    intro a ha
    simp [fill_slot, after_dev_write, Function.update_noteq ha]

/-- Witness for C9: on a one-slot cache that has cached address 5 by a write miss, the
write of `[89]` at address 5 (a hit) appends one call to the store's record and
leaves `[89]` at address 5. -/
theorem write_reaches_device_witness :
    cachedisk_write (state_after (fresh 1) [Op.write 5 [88]]) 5 [89]
      = Result.ret 0 (state_after (fresh 1) [Op.write 5 [88], Op.write 5 [89]]) [89] ∧
    ((0 : Int) = 0 ∧
     (state_after (fresh 1) [Op.write 5 [88], Op.write 5 [89]]).below.calls
        = (state_after (fresh 1) [Op.write 5 [88]]).below.calls ++ [dev_call.wr 5 [89]] ∧
     (state_after (fresh 1) [Op.write 5 [88], Op.write 5 [89]]).below.data 5 = [89] ∧
     (∀ a, a ≠ 5 →
        (state_after (fresh 1) [Op.write 5 [88], Op.write 5 [89]]).below.data a
          = (state_after (fresh 1) [Op.write 5 [88]]).below.data a)) :=
  ⟨rfl, write_reaches_device (state_after (fresh 1) [Op.write 5 [88]]) 5 [89] 0
    (state_after (fresh 1) [Op.write 5 [88], Op.write 5 [89]]) [89] rfl⟩

/-- C10. A `cachedisk_read` never modifies the store below: whatever the state and the
address, the contents of the store are the same after the call; on a hit the store is
not called at all, on a miss the only call made is the read of that address; a call
that returns returns status 0, and the call does return on every hit and on every
miss that the store answers (the cache having at least one slot and at most `2^31`,
the indices `find_LRU_index` can return). -/
theorem read_leaves_device (cs : cachedisk_state) (a : block_no) (buf : block_t) :
    (cachedisk_read cs a buf).cs.below.data = cs.below.data ∧
    ((lookup cs a).2 = true → (cachedisk_read cs a buf).cs.below = cs.below) ∧
    ((lookup cs a).2 = false →
      (cachedisk_read cs a buf).cs.below
        = { cs.below with calls := cs.below.calls ++ [dev_call.rd a] }) ∧
    (∀ st s1 out, cachedisk_read cs a buf = Result.ret st s1 out → st = 0) ∧
    (((lookup cs a).2 = true ∨
        (cs.below.rd_ok a = true ∧ 0 < cs.nblocks ∧ cs.nblocks ≤ 2147483648)) →
      ∃ s1 out, cachedisk_read cs a buf = Result.ret 0 s1 out) := by
  cases hl : (lookup cs a).2 with
  | true =>
    rw [read_hit_eq buf hl]
    refine ⟨rfl, fun _ => rfl, fun h => (by cases h), ?_, fun _ => ⟨_, _, rfl⟩⟩
    intro st s1 out h
    injection h with h1 _ _
    exact h1.symm
  | false =>
    cases hd : cs.below.rd_ok a with
    | false =>
      rw [read_miss_fail_eq buf hl hd]
      refine ⟨rfl, fun h => (by cases h), fun _ => rfl, fun _ _ _ h => (by cases h), ?_⟩
      rintro (h | ⟨h, _⟩) <;> cases h
    | true =>
      rw [read_miss_ok_eq buf hl hd]
      unfold insert_block
      split
      · refine ⟨rfl, fun h => (by cases h), fun _ => rfl, ?_, fun _ => ⟨_, _, rfl⟩⟩
        intro st s1 out h
        injection h with h1 _ _
        exact h1.symm
      · rename_i hv
        refine ⟨rfl, fun h => (by cases h), fun _ => rfl, fun _ _ _ h => (by cases h), ?_⟩
        rintro (h | ⟨_, h1, h2⟩)
        · cases h
        · exact absurd (can_store_of_bounds (after_dev_read cs a) h1 h2) hv

/-! ## Reads that follow an access to the same address -/

/-- The read that follows a returned write of the same address finds the address: it
returns the block written, applies `++` to `read_hit` and leaves the other counters
and the store below alone. -/
theorem write_then_read_hit (cs : cachedisk_state) (A : block_no) (V buf : block_t) (st : Int)
    (s1 : cachedisk_state) (out : block_t)
    (hw : cachedisk_write cs A V = Result.ret st s1 out) :
    ∃ s2, cachedisk_read s1 A buf = Result.ret 0 s2 V ∧
      s2.read_hit = incr s1.read_hit ∧ s2.read_miss = s1.read_miss ∧
      s2.write_hit = s1.write_hit ∧ s2.write_miss = s1.write_miss ∧
      s2.below = s1.below := by
  obtain ⟨_, _, _, h4⟩ := write_ret_cases hw
  rcases h4 with ⟨hl, rfl⟩ | ⟨hl, hv, rfl⟩
  · have hl1 : lookup (after_write_hit cs (lookup cs A).1 A V) A = lookup cs A := rfl
    have hh : (lookup (after_write_hit cs (lookup cs A).1 A V) A).2 = true := by
      rw [hl1]; exact hl
    refine ⟨after_read_hit (after_write_hit cs (lookup cs A).1 A V) (lookup cs A).1,
      ?_, rfl, rfl, rfl, rfl, rfl⟩
    rw [read_hit_eq buf hh, hl1]
    simp [after_write_hit]
  · have hl1 : lookup (fill_slot (after_dev_write cs A V) (victim cs) A V) A
        = (victim cs, true) :=
      lookup_fill_slot V hv (lookup_miss hl)
    have hh : (lookup (fill_slot (after_dev_write cs A V) (victim cs) A V) A).2 = true := by
      rw [hl1]
    refine ⟨after_read_hit (fill_slot (after_dev_write cs A V) (victim cs) A V) (victim cs),
      ?_, rfl, rfl, rfl, rfl, rfl⟩
    rw [read_hit_eq buf hh, hl1]
    simp [fill_slot]

/-- C7, amended. Read after write on the 32-bit counters: in every state, for every
address `A` and block `V`, when `cachedisk_write(A, V)` has returned (hit or miss; a
write returns only when the cache has at least one slot), the `cachedisk_read(A)` that
follows at once returns `V` with status 0, counts as a read hit and makes no call on
the store below: `read_miss`, `write_hit` and `write_miss` are unchanged and `read_hit`
has had `++` applied, which is `read_hit + 1` as long as `read_hit` was below
`2^32 - 1` and is 0 when `read_hit` was `2^32 - 1`. -/
theorem read_after_write (cs : cachedisk_state) (A : block_no) (V buf : block_t) (st : Int)
    (s1 : cachedisk_state) (out : block_t)
    (hw : cachedisk_write cs A V = Result.ret st s1 out) :
    ∃ s2, cachedisk_read s1 A buf = Result.ret 0 s2 V ∧
      s2.read_hit = incr s1.read_hit ∧
      (s1.read_hit < 4294967295 → s2.read_hit = s1.read_hit + 1) ∧
      (s1.read_hit = 4294967295 → s2.read_hit = 0) ∧
      s2.read_miss = s1.read_miss ∧
      s2.write_hit = s1.write_hit ∧ s2.write_miss = s1.write_miss ∧
      s2.below = s1.below := by
  obtain ⟨s2, h1, h2, h3, h4, h5, h6⟩ := write_then_read_hit cs A V buf st s1 out hw
  refine ⟨s2, h1, h2, ?_, ?_, h3, h4, h5, h6⟩
  · intro hlt
    rw [h2]
    unfold incr UINT_RANGE
    omega
  · intro heq
    rw [h2, heq]
    rfl

/-- Witness for C7, the one-slot scenario: on a fresh cache `write(5, X)` is a miss,
`write(5, Y)` is a hit, and `read(5)` returns `Y` as a hit. -/
theorem read_after_write_witness :
    stats (state_after (fresh 1) [Op.write 5 [88]]) = (0, 0, 0, 1) ∧
    stats (state_after (fresh 1) [Op.write 5 [88], Op.write 5 [89]]) = (0, 0, 1, 1) ∧
    cachedisk_write (state_after (fresh 1) [Op.write 5 [88]]) 5 [89]
      = Result.ret 0 (state_after (fresh 1) [Op.write 5 [88], Op.write 5 [89]]) [89] ∧
    ∃ s2, cachedisk_read (state_after (fresh 1) [Op.write 5 [88], Op.write 5 [89]]) 5 []
        = Result.ret 0 s2 [89] ∧
      s2.read_hit = incr (state_after (fresh 1) [Op.write 5 [88], Op.write 5 [89]]).read_hit ∧
      ((state_after (fresh 1) [Op.write 5 [88], Op.write 5 [89]]).read_hit < 4294967295 →
        s2.read_hit
          = (state_after (fresh 1) [Op.write 5 [88], Op.write 5 [89]]).read_hit + 1) ∧
      ((state_after (fresh 1) [Op.write 5 [88], Op.write 5 [89]]).read_hit = 4294967295 →
        s2.read_hit = 0) ∧
      s2.read_miss = (state_after (fresh 1) [Op.write 5 [88], Op.write 5 [89]]).read_miss ∧
      s2.write_hit = (state_after (fresh 1) [Op.write 5 [88], Op.write 5 [89]]).write_hit ∧
      s2.write_miss = (state_after (fresh 1) [Op.write 5 [88], Op.write 5 [89]]).write_miss ∧
      s2.below = (state_after (fresh 1) [Op.write 5 [88], Op.write 5 [89]]).below :=
  ⟨by decide, by decide, rfl,
    read_after_write (state_after (fresh 1) [Op.write 5 [88]]) 5 [89] [] 0
      (state_after (fresh 1) [Op.write 5 [88], Op.write 5 [89]]) [89] rfl⟩

theorem run_cons_some {cs s : cachedisk_state} {op : Op} {ops : List Op}
    (h : run cs (op :: ops) = some s) :
    ∃ st s1 out, step cs op = Result.ret st s1 out ∧ run s1 ops = some s := by
  simp only [run] at h
  split at h
  · rename_i st s1 out he
    exact ⟨st, s1, out, he, h⟩
  · cases h

theorem run_cons_of_step {cs s1 : cachedisk_state} {op : Op} {st : Int} {out : block_t}
    (ops : List Op) (h : step cs op = Result.ret st s1 out) :
    run cs (op :: ops) = run s1 ops := by
  simp [run, h]

theorem run_append (ops1 ops2 : List Op) : ∀ (cs : cachedisk_state),
    run cs (ops1 ++ ops2) = (run cs ops1).bind (fun s => run s ops2) := by
  induction ops1 with
  | nil => intro cs; rfl
  | cons op ops ih =>
    intro cs
    simp only [List.cons_append, run]
    split
    · exact ih _
    · rfl

/-- What a returned request leaves alone: the number of slots and the parameters of
the store below. -/
theorem step_frame {cs s1 : cachedisk_state} {op : Op} {st : Int} {out : block_t}
    (h : step cs op = Result.ret st s1 out) :
    s1.nblocks = cs.nblocks ∧ s1.below.rd_ok = cs.below.rd_ok ∧
      s1.below.wr_ok = cs.below.wr_ok ∧ 0 < cs.nblocks := by
  cases op with
  | read a b =>
    obtain ⟨_, h4⟩ := read_ret_cases h
    rcases h4 with ⟨hl, rfl, _⟩ | ⟨_, _, hv, rfl, _⟩
    · exact ⟨rfl, rfl, rfl, by have := (lookup_hit hl).1; omega⟩
    · exact ⟨rfl, rfl, rfl, by omega⟩
  | write a b =>
    obtain ⟨_, _, _, h4⟩ := write_ret_cases h
    rcases h4 with ⟨hl, rfl⟩ | ⟨_, hv, rfl⟩
    · exact ⟨rfl, rfl, rfl, by have := (lookup_hit hl).1; omega⟩
    · exact ⟨rfl, rfl, rfl, by omega⟩

theorem run_frame : ∀ (ops : List Op) {cs s : cachedisk_state}, run cs ops = some s →
    s.nblocks = cs.nblocks ∧ s.below.rd_ok = cs.below.rd_ok ∧ s.below.wr_ok = cs.below.wr_ok := by
  intro ops
  induction ops with
  | nil =>
    intro cs s h
    simp only [run, Option.some.injEq] at h
    subst h
    exact ⟨rfl, rfl, rfl⟩
  | cons op ops ih =>
    intro cs s h
    obtain ⟨st, s1, out, h1, h2⟩ := run_cons_some h
    obtain ⟨a1, a2, a3, _⟩ := step_frame h1
    obtain ⟨b1, b2, b3⟩ := ih h2
    exact ⟨b1.trans a1, b2.trans a2, b3.trans a3⟩

/-- The contents of the store below after a returned request. -/
theorem step_data {cs s1 : cachedisk_state} {op : Op} {st : Int} {out : block_t}
    (h : step cs op = Result.ret st s1 out) :
    s1.below.data = match op with
      | Op.read _ _ => cs.below.data
      | Op.write a v => Function.update cs.below.data a v := by
  cases op with
  | read a b =>
    obtain ⟨_, h4⟩ := read_ret_cases h
    rcases h4 with ⟨_, rfl, _⟩ | ⟨_, _, _, rfl, _⟩ <;> rfl
  | write a b =>
    obtain ⟨_, _, _, h4⟩ := write_ret_cases h
    rcases h4 with ⟨_, rfl⟩ | ⟨_, _, rfl⟩ <;> rfl

/-! ## The two invariants of the slot table -/

theorem init_no_duplicate (below : block_store_t) (blocks : Nat → block_t) (nblocks : Nat) :
    no_duplicate (cachedisk_init below blocks nblocks) := by
  intro i j hi
  exact absurd rfl hi.2

theorem init_coherent (below : block_store_t) (blocks : Nat → block_t) (nblocks : Nat) :
    coherent (cachedisk_init below blocks nblocks) := by
  intro i hi
  exact absurd rfl hi.2

/-- Binding slot `k` to an address no slot holds keeps the bindings distinct. -/
theorem fill_slot_no_duplicate {cs : cachedisk_state} {a : block_no} (v : block_t) {k : Nat}
    (hn : no_duplicate cs) (hm : ∀ j, j < cs.nblocks → cs.metadata j ≠ a) :
    no_duplicate (fill_slot cs k a v) := by
  intro i j hi hj hij
  obtain ⟨hi1, hi2⟩ := hi
  obtain ⟨hj1, hj2⟩ := hj
  simp only [fill_slot] at hi1 hi2 hj1 hj2 hij
  by_cases hik : i = k <;> by_cases hjk : j = k
  · rw [hik, hjk]
  · rw [hik, Function.update_same, Function.update_noteq hjk] at hij
    exact absurd hij.symm (hm j hj1)
  · rw [hjk, Function.update_same, Function.update_noteq hik] at hij
    exact absurd hij (hm i hi1)
  · rw [Function.update_noteq hik] at hij hi2
    rw [Function.update_noteq hjk] at hij hj2
    exact hn i j ⟨hi1, hi2⟩ ⟨hj1, hj2⟩ hij

theorem step_no_duplicate {cs s1 : cachedisk_state} {op : Op} {st : Int} {out : block_t}
    (hn : no_duplicate cs) (h : step cs op = Result.ret st s1 out) : no_duplicate s1 := by
  cases op with
  | read a b =>
    obtain ⟨_, h4⟩ := read_ret_cases h
    rcases h4 with ⟨_, rfl, _⟩ | ⟨hl, _, _, rfl, _⟩
    · exact hn
    · exact fill_slot_no_duplicate (cs.below.data a) (k := victim cs)
        (show no_duplicate (after_dev_read cs a) from hn) (lookup_miss hl)
  | write a b =>
    obtain ⟨_, _, _, h4⟩ := write_ret_cases h
    rcases h4 with ⟨_, rfl⟩ | ⟨hl, _, rfl⟩
    · exact hn
    · exact fill_slot_no_duplicate b (k := victim cs)
        (show no_duplicate (after_dev_write cs a b) from hn) (lookup_miss hl)

theorem step_coherent {cs s1 : cachedisk_state} {op : Op} {st : Int} {out : block_t}
    (hn : no_duplicate cs) (hc : coherent cs) (h : step cs op = Result.ret st s1 out) :
    coherent s1 := by
  cases op with
  | read a b =>
    obtain ⟨_, h4⟩ := read_ret_cases h
    rcases h4 with ⟨_, rfl, _⟩ | ⟨hl, _, _, rfl, _⟩
    · exact hc
    · intro i hi
      obtain ⟨hi1, hi2⟩ := hi
      simp only [fill_slot, after_dev_read] at hi1 hi2 ⊢
      by_cases hik : i = victim cs
      · rw [hik]
        simp
      · rw [Function.update_noteq hik] at hi2 ⊢
        rw [Function.update_noteq hik]
        exact hc i ⟨hi1, hi2⟩
  | write a b =>
    obtain ⟨_, _, _, h4⟩ := write_ret_cases h
    rcases h4 with ⟨hl, rfl⟩ | ⟨hl, _, rfl⟩
    · intro i hi
      obtain ⟨hi1, hi2⟩ := hi
      obtain ⟨l1, l2, _⟩ := lookup_hit hl
      simp only [after_write_hit] at hi1 hi2 ⊢
      by_cases hik : i = (lookup cs a).1
      · rw [hik, l2]
        simp
      · have hne : cs.metadata i ≠ a := by
          intro he
          apply hik
          apply hn i _ ⟨hi1, hi2⟩ ⟨l1, by rw [l2, ← he]; exact hi2⟩
          rw [l2, he]
        rw [Function.update_noteq hik, Function.update_noteq hne]
        exact hc i ⟨hi1, hi2⟩
    · intro i hi
      obtain ⟨hi1, hi2⟩ := hi
      simp only [fill_slot, after_dev_write] at hi1 hi2 ⊢
      by_cases hik : i = victim cs
      · rw [hik, Function.update_same, Function.update_same, Function.update_same]
      · rw [Function.update_noteq hik] at hi2 ⊢
        rw [Function.update_noteq hik, Function.update_noteq (lookup_miss hl i hi1)]
        exact hc i ⟨hi1, hi2⟩

theorem run_invariants : ∀ (ops : List Op) {cs s : cachedisk_state},
    no_duplicate cs → coherent cs → run cs ops = some s → no_duplicate s ∧ coherent s := by
  intro ops
  induction ops with
  | nil =>
    intro cs s hn hc h
    simp only [run, Option.some.injEq] at h
    subst h
    exact ⟨hn, hc⟩
  | cons op ops ih =>
    intro cs s hn hc h
    obtain ⟨st, s1, out, h1, h2⟩ := run_cons_some h
    exact ih (step_no_duplicate hn h1) (step_coherent hn hc h1) h2

/-- Requests that do not write address `A` leave the store's block at `A` alone. -/
theorem run_data_of_no_write (A : block_no) : ∀ (ops : List Op) {cs s : cachedisk_state},
    (∀ op, op ∈ ops → ∀ b, op ≠ Op.write A b) → run cs ops = some s →
    s.below.data A = cs.below.data A := by
  intro ops
  induction ops with
  | nil =>
    intro cs s _ h
    simp only [run, Option.some.injEq] at h
    subst h
    rfl
  | cons op ops ih =>
    intro cs s hno h
    obtain ⟨st, s1, out, h1, h2⟩ := run_cons_some h
    rw [ih (fun o ho => hno o (List.mem_cons_of_mem _ ho)) h2, step_data h1]
    cases op with
    | read a b => rfl
    | write a b =>
      have hne : A ≠ a := by
        intro he
        exact hno (Op.write a b) (List.mem_cons_self _ _) b (by rw [he])
      exact Function.update_noteq hne _ _

/-- What a read of `A` gives in a state whose slot table is coherent, `A` not being
the empty marker: a return hands back the store's block, and the read returns when
it is a hit or the store answers. -/
theorem read_of_coherent {cs : cachedisk_state} {A : block_no} (buf : block_t)
    (hA : A ≠ NO_BLOCK) (hc : coherent cs) :
    (cs.below.rd_ok A = true → can_store cs = true →
      ∃ s1, cachedisk_read cs A buf = Result.ret 0 s1 (cs.below.data A)) ∧
    (∀ st s1 out, cachedisk_read cs A buf = Result.ret st s1 out → out = cs.below.data A) := by
  have key : ∀ st s1 out, cachedisk_read cs A buf = Result.ret st s1 out →
      out = cs.below.data A := by
    intro st s1 out h
    obtain ⟨_, h4⟩ := read_ret_cases h
    rcases h4 with ⟨hl, _, ho⟩ | ⟨_, _, _, _, ho⟩
    · obtain ⟨l1, l2, _⟩ := lookup_hit hl
      rw [ho, hc _ ⟨l1, by rw [l2]; exact hA⟩, l2]
    · exact ho
  refine ⟨?_, key⟩
  intro hd hcan
  cases hl : (lookup cs A).2 with
  | true =>
    have e := read_hit_eq buf hl
    have := key _ _ _ e
    rw [this] at e
    exact ⟨_, e⟩
  | false =>
    refine ⟨fill_slot (after_dev_read cs A) (victim cs) A (cs.below.data A), ?_⟩
    have hcan2 : can_store (after_dev_read cs A) = true := hcan
    rw [read_miss_ok_eq buf hl hd, insert_block, if_pos hcan2]
    rfl

/-! ## Consistency of the cache with the store below -/

/-- C1, amended. Write-through consistency for every address other than the empty
marker: start from `cachedisk_init`, let any requests `pre` return, let
`cachedisk_write(A, V)` return with `A ≠ NO_BLOCK`, then let any requests `mid` return
that do not write address `A` (reads of any address, writes of other addresses).
The `cachedisk_read(A)` made then hands back `V` whenever it returns, and it does
return, with status 0, when the store below answers reads of `A` (the cache having at
most `2^31` slots, the indices `find_LRU_index` can return). -/
theorem write_through_consistency (below : block_store_t) (blocks : Nat → block_t)
    (nblocks : Nat) (pre mid : List Op) (A : block_no) (V buf : block_t) (st : Int)
    (s0 s1 s2 : cachedisk_state) (out : block_t)
    (hA : A ≠ NO_BLOCK)
    (hpre : run (cachedisk_init below blocks nblocks) pre = some s0)
    (hw : cachedisk_write s0 A V = Result.ret st s1 out)
    (hmid : ∀ op, op ∈ mid → ∀ b, op ≠ Op.write A b)
    (hrun : run s1 mid = some s2) :
    (s2.below.rd_ok A = true → nblocks ≤ 2147483648 →
      ∃ s3, cachedisk_read s2 A buf = Result.ret 0 s3 V) ∧
    (∀ st3 s3 out3, cachedisk_read s2 A buf = Result.ret st3 s3 out3 → out3 = V) := by
  have hstep : step s0 (Op.write A V) = Result.ret st s1 out := hw
  obtain ⟨n0, c0⟩ := run_invariants pre (init_no_duplicate below blocks nblocks)
    (init_coherent below blocks nblocks) hpre
  obtain ⟨_, c2⟩ := run_invariants mid (step_no_duplicate n0 hstep)
    (step_coherent n0 c0 hstep) hrun
  have hd : s2.below.data A = V := by
    rw [run_data_of_no_write A mid hmid hrun, step_data hstep]
    exact Function.update_same _ _ _
  have hpos : 0 < s2.nblocks := by
    rw [(run_frame mid hrun).1, (step_frame hstep).1]
    exact (step_frame hstep).2.2.2
  have hnb : s2.nblocks = nblocks := by
    rw [(run_frame mid hrun).1, (step_frame hstep).1, (run_frame pre hpre).1]
    rfl
  have := read_of_coherent buf hA c2
  rw [hd] at this
  exact ⟨fun hr hle => this.1 hr (can_store_of_bounds s2 hpos (by rw [hnb]; exact hle)),
    this.2⟩

/-- Witness for C1: on a fresh one-slot cache, `write(3, [7])`, then `read(4)` (which
evicts address 3) and `write(4, [8])`, then `read(3)` hands back `[7]`. -/
theorem write_through_consistency_witness :
    (3 : block_no) ≠ NO_BLOCK ∧
    run (cachedisk_init (ideal_store (fun _ => [])) (fun _ => []) 1) [Op.read 9 []]
      = some (state_after (fresh 1) [Op.read 9 []]) ∧
    cachedisk_write (state_after (fresh 1) [Op.read 9 []]) 3 [7]
      = Result.ret 0 (state_after (fresh 1) [Op.read 9 [], Op.write 3 [7]]) [7] ∧
    run (state_after (fresh 1) [Op.read 9 [], Op.write 3 [7]]) [Op.read 4 [], Op.write 4 [8]]
      = some (state_after (fresh 1)
          [Op.read 9 [], Op.write 3 [7], Op.read 4 [], Op.write 4 [8]]) ∧
    ((state_after (fresh 1)
          [Op.read 9 [], Op.write 3 [7], Op.read 4 [], Op.write 4 [8]]).below.rd_ok 3 = true →
      1 ≤ 2147483648 →
      ∃ s3, cachedisk_read (state_after (fresh 1)
          [Op.read 9 [], Op.write 3 [7], Op.read 4 [], Op.write 4 [8]]) 3 []
        = Result.ret 0 s3 [7]) ∧
    (∀ st3 s3 out3, cachedisk_read (state_after (fresh 1)
          [Op.read 9 [], Op.write 3 [7], Op.read 4 [], Op.write 4 [8]]) 3 []
        = Result.ret st3 s3 out3 → out3 = [7]) :=
  ⟨by decide, rfl, rfl, rfl,
    write_through_consistency (ideal_store (fun _ => [])) (fun _ => []) 1 [Op.read 9 []]
      [Op.read 4 [], Op.write 4 [8]] 3 [7] [] 0 (state_after (fresh 1) [Op.read 9 []])
      (state_after (fresh 1) [Op.read 9 [], Op.write 3 [7]])
      (state_after (fresh 1) [Op.read 9 [], Op.write 3 [7], Op.read 4 [], Op.write 4 [8]])
      [7] (by decide) rfl rfl
      (by
        intro op hop b
        simp only [List.mem_cons, List.mem_singleton, List.not_mem_nil, or_false] at hop
        rcases hop with rfl | rfl <;> simp)
      rfl⟩

/-- Counterexample to C1 as stated, at the address `2^32 - 1` that marks an empty
slot.  On a fresh two-slot cache over zero-filled cache memory, `write(2^32 - 1, [1])`
returns (counted as a write hit on the empty slot 0) and the store holds `[1]` at that
address; `read(7)` then takes slot 0, and the `read(2^32 - 1)` that follows returns
status 0 as a hit on the empty slot 1 and hands back the block `[]` of the cache
memory, not `[1]`. -/
theorem write_through_fails_at_empty_marker :
    (run (fresh 2) [Op.write 4294967295 [1]]).map (fun s => s.below.data 4294967295)
      = some [1] ∧
    (run (fresh 2) [Op.write 4294967295 [1], Op.read 7 []]).map bindings
      = some [7, 4294967295] ∧
    read_after (fresh 2) [Op.write 4294967295 [1], Op.read 7 []] 4294967295 = some [] ∧
    (run (fresh 2) [Op.write 4294967295 [1], Op.read 7 [], Op.read 4294967295 []]).map stats
      = some (1, 1, 1, 0) := by
  decide

/-- C2. Cache/device coherence: in every state reached from `cachedisk_init` by reads
and writes that all returned, every occupied slot `i` (`metadata[i]` is not the empty
marker) holds in `blocks[i]` the block the store below holds at address
`metadata[i]`. -/
theorem cache_device_coherence (below : block_store_t) (blocks : Nat → block_t)
    (nblocks : Nat) (ops : List Op) (s : cachedisk_state)
    (h : run (cachedisk_init below blocks nblocks) ops = some s)
    (i : Nat) (hi : i < s.nblocks) (hocc : s.metadata i ≠ NO_BLOCK) :
    s.blocks i = s.below.data (s.metadata i) :=
  (run_invariants ops (init_no_duplicate below blocks nblocks)
    (init_coherent below blocks nblocks) h).2 i ⟨hi, hocc⟩

/-- Witness for C2: slot 1 of a two-slot cache after `write(0, [65])`, `write(1, [66])`,
`read(0)`, `write(2, [67])`. -/
theorem cache_device_coherence_witness :
    run (cachedisk_init (ideal_store (fun _ => [])) (fun _ => []) 2)
        [Op.write 0 [65], Op.write 1 [66], Op.read 0 [], Op.write 2 [67]]
      = some (state_after (fresh 2)
          [Op.write 0 [65], Op.write 1 [66], Op.read 0 [], Op.write 2 [67]]) ∧
    1 < (state_after (fresh 2)
          [Op.write 0 [65], Op.write 1 [66], Op.read 0 [], Op.write 2 [67]]).nblocks ∧
    (state_after (fresh 2)
          [Op.write 0 [65], Op.write 1 [66], Op.read 0 [], Op.write 2 [67]]).metadata 1
      ≠ NO_BLOCK ∧
    (state_after (fresh 2)
          [Op.write 0 [65], Op.write 1 [66], Op.read 0 [], Op.write 2 [67]]).blocks 1
      = (state_after (fresh 2)
          [Op.write 0 [65], Op.write 1 [66], Op.read 0 [], Op.write 2 [67]]).below.data
        ((state_after (fresh 2)
          [Op.write 0 [65], Op.write 1 [66], Op.read 0 [], Op.write 2 [67]]).metadata 1) :=
  ⟨rfl, by decide, by decide,
    cache_device_coherence (ideal_store (fun _ => [])) (fun _ => []) 2
      [Op.write 0 [65], Op.write 1 [66], Op.read 0 [], Op.write 2 [67]]
      (state_after (fresh 2) [Op.write 0 [65], Op.write 1 [66], Op.read 0 [], Op.write 2 [67]])
      rfl 1 (by decide) (by decide)⟩

/-- C5. No duplicate binding: in every state reached from `cachedisk_init` by reads and
writes (of any addresses) that all returned, two different slots have the same
`metadata` entry only if both are empty. -/
theorem no_duplicate_binding (below : block_store_t) (blocks : Nat → block_t)
    (nblocks : Nat) (ops : List Op) (s : cachedisk_state)
    (h : run (cachedisk_init below blocks nblocks) ops = some s)
    (i j : Nat) (hi : i < s.nblocks) (hj : j < s.nblocks) (hij : i ≠ j)
    (he : s.metadata i = s.metadata j) :
    s.metadata i = NO_BLOCK ∧ s.metadata j = NO_BLOCK := by
  have hn := (run_invariants ops (init_no_duplicate below blocks nblocks)
    (init_coherent below blocks nblocks) h).1
  by_cases hm : s.metadata i = NO_BLOCK
  · exact ⟨hm, he ▸ hm⟩
  · exact absurd (hn i j ⟨hi, hm⟩ ⟨hj, he ▸ hm⟩ he) hij

/-- Witness for C5: slots 1 and 2 of a three-slot cache after `write(5, [1])` and
`read(2^32 - 1)` carry the same entry, and it is the empty marker. -/
theorem no_duplicate_binding_witness :
    run (cachedisk_init (ideal_store (fun _ => [])) (fun _ => []) 3)
        [Op.write 5 [1], Op.read 4294967295 []]
      = some (state_after (fresh 3) [Op.write 5 [1], Op.read 4294967295 []]) ∧
    1 < (state_after (fresh 3) [Op.write 5 [1], Op.read 4294967295 []]).nblocks ∧
    2 < (state_after (fresh 3) [Op.write 5 [1], Op.read 4294967295 []]).nblocks ∧
    (1 : Nat) ≠ 2 ∧
    (state_after (fresh 3) [Op.write 5 [1], Op.read 4294967295 []]).metadata 1
      = (state_after (fresh 3) [Op.write 5 [1], Op.read 4294967295 []]).metadata 2 ∧
    ((state_after (fresh 3) [Op.write 5 [1], Op.read 4294967295 []]).metadata 1 = NO_BLOCK ∧
     (state_after (fresh 3) [Op.write 5 [1], Op.read 4294967295 []]).metadata 2 = NO_BLOCK) :=
  ⟨rfl, by decide, by decide, by decide, by decide,
    no_duplicate_binding (ideal_store (fun _ => [])) (fun _ => []) 3
      [Op.write 5 [1], Op.read 4294967295 []]
      (state_after (fresh 3) [Op.write 5 [1], Op.read 4294967295 []])
      rfl 1 2 (by decide) (by decide) (by decide) (by decide)⟩

/-! ## The two-slot scenario -/

/-- C4, amended. The two-slot scenario on a fresh cache (`fresh 2`: an ideal store
holding empty blocks, zero-filled cache memory).  The two writes miss and are cached;
`read(0)` hits; `write(2, "C")` misses and evicts address 1; `read(1)` is a miss that
hands back "B" from the store and evicts address 0, by then the older of the two
cached addresses; the final `read(0)` is therefore a miss as well, handing back "A"
from the store.  A `read(0)` made right after `write(2, "C")` would be a hit. -/
theorem scenario_outcome :
    (run (fresh 2) (scenario.take 1)).map observe = some ((0, 0, 0, 1), [0, NO_BLOCK]) ∧
    (run (fresh 2) (scenario.take 2)).map observe = some ((0, 0, 0, 2), [0, 1]) ∧
    (run (fresh 2) (scenario.take 3)).map observe = some ((1, 0, 0, 2), [0, 1]) ∧
    (run (fresh 2) (scenario.take 4)).map observe = some ((1, 0, 0, 3), [0, 2]) ∧
    (run (fresh 2) (scenario.take 5)).map observe = some ((1, 1, 0, 3), [1, 2]) ∧
    read_after (fresh 2) (scenario.take 4) 1 = some [66] ∧
    (run (fresh 2) scenario).map observe = some ((1, 2, 0, 3), [1, 0]) ∧
    read_after (fresh 2) (scenario.take 5) 0 = some [65] ∧
    (run (fresh 2) scenario).map (fun s => s.below.calls)
      = some [dev_call.wr 0 [65], dev_call.wr 1 [66], dev_call.wr 2 [67],
              dev_call.rd 1, dev_call.rd 0] ∧
    (run (fresh 2) (scenario.take 4 ++ [Op.read 0 []])).map observe
      = some ((2, 0, 0, 3), [0, 2]) :=
  ⟨by decide, by decide, by decide, by decide, by decide, by decide, by decide, by decide,
    by decide, by decide⟩

/-- Counterexample to C4 as stated: after the first five requests of the scenario the
slots hold addresses 1 and 2, so the traversal of the final `read(0)` finds nothing,
and the call increments `read_miss` (from 1 to 2), not `read_hit`, and reads address 0
from the store below. -/
theorem scenario_final_read_is_miss :
    (run (fresh 2) (scenario.take 5)).map observe = some ((1, 1, 0, 3), [1, 2]) ∧
    (run (fresh 2) (scenario.take 5)).map (fun s => (lookup s 0).2) = some false ∧
    (run (fresh 2) scenario).map observe = some ((1, 2, 0, 3), [1, 0]) ∧
    (run (fresh 2) scenario).map (fun s => s.below.calls.getLast?)
      = some (some (dev_call.rd 0)) := by
  decide

/-! ## Statistics -/

theorem incr_ne_self (x : Nat) : incr x ≠ x := by
  unfold incr UINT_RANGE
  omega

theorem read_counters (cs : cachedisk_state) (a : block_no) (buf : block_t) :
    (if (lookup cs a).2 then
        (cachedisk_read cs a buf).cs.read_hit = incr cs.read_hit ∧
        (cachedisk_read cs a buf).cs.read_miss = cs.read_miss
      else
        (cachedisk_read cs a buf).cs.read_hit = cs.read_hit ∧
        (cachedisk_read cs a buf).cs.read_miss = incr cs.read_miss) ∧
    (cachedisk_read cs a buf).cs.write_hit = cs.write_hit ∧
    (cachedisk_read cs a buf).cs.write_miss = cs.write_miss := by
  cases hl : (lookup cs a).2 with
  | true =>
    rw [read_hit_eq buf hl]
    exact ⟨⟨rfl, rfl⟩, rfl, rfl⟩
  | false =>
    cases hd : cs.below.rd_ok a with
    | false =>
      rw [read_miss_fail_eq buf hl hd]
      exact ⟨⟨rfl, rfl⟩, rfl, rfl⟩
    | true =>
      rw [read_miss_ok_eq buf hl hd, insert_block]
      by_cases hv : can_store (after_dev_read cs a) = true
      · rw [if_pos hv]
        exact ⟨⟨rfl, rfl⟩, rfl, rfl⟩
      · rw [if_neg hv]
        exact ⟨⟨rfl, rfl⟩, rfl, rfl⟩

theorem write_counters (cs : cachedisk_state) (a : block_no) (v : block_t) :
    (if (lookup cs a).2 then
        (cachedisk_write cs a v).cs.write_hit = incr cs.write_hit ∧
        (cachedisk_write cs a v).cs.write_miss = cs.write_miss
      else
        (cachedisk_write cs a v).cs.write_hit = cs.write_hit ∧
        (cachedisk_write cs a v).cs.write_miss = incr cs.write_miss) ∧
    (cachedisk_write cs a v).cs.read_hit = cs.read_hit ∧
    (cachedisk_write cs a v).cs.read_miss = cs.read_miss := by
  cases hl : (lookup cs a).2 with
  | true =>
    cases hd : cs.below.wr_ok a with
    | false =>
      rw [write_hit_fail_eq v hl hd]
      exact ⟨⟨rfl, rfl⟩, rfl, rfl⟩
    | true =>
      rw [write_hit_ok_eq v hl hd]
      exact ⟨⟨rfl, rfl⟩, rfl, rfl⟩
  | false =>
    cases hd : cs.below.wr_ok a with
    | false =>
      rw [write_miss_fail_eq v hl hd]
      exact ⟨⟨rfl, rfl⟩, rfl, rfl⟩
    | true =>
      rw [write_miss_ok_eq v hl hd, insert_block]
      by_cases hv : can_store (after_dev_write cs a v) = true
      · rw [if_pos hv]
        exact ⟨⟨rfl, rfl⟩, rfl, rfl⟩
      · rw [if_neg hv]
        exact ⟨⟨rfl, rfl⟩, rfl, rfl⟩

/-- The counters after a returned request, in terms of the counters before. -/
theorem step_counters {cs s1 : cachedisk_state} {op : Op} {st : Int} {out : block_t}
    (h : step cs op = Result.ret st s1 out) :
    match op with
    | Op.read _ _ =>
      ((s1.read_hit = incr cs.read_hit ∧ s1.read_miss = cs.read_miss) ∨
       (s1.read_hit = cs.read_hit ∧ s1.read_miss = incr cs.read_miss)) ∧
      s1.write_hit = cs.write_hit ∧ s1.write_miss = cs.write_miss
    | Op.write _ _ =>
      ((s1.write_hit = incr cs.write_hit ∧ s1.write_miss = cs.write_miss) ∨
       (s1.write_hit = cs.write_hit ∧ s1.write_miss = incr cs.write_miss)) ∧
      s1.read_hit = cs.read_hit ∧ s1.read_miss = cs.read_miss := by
  cases op with
  | read a b =>
    have e : s1 = (cachedisk_read cs a b).cs := by
      have : cachedisk_read cs a b = Result.ret st s1 out := h
      rw [this]; rfl
    obtain ⟨h1, h2, h3⟩ := read_counters cs a b
    rw [← e] at h1 h2 h3
    refine ⟨?_, h2, h3⟩
    split at h1
    · exact Or.inl h1
    · exact Or.inr h1
  | write a b =>
    have e : s1 = (cachedisk_write cs a b).cs := by
      have : cachedisk_write cs a b = Result.ret st s1 out := h
      rw [this]; rfl
    obtain ⟨h1, h2, h3⟩ := write_counters cs a b
    rw [← e] at h1 h2 h3
    refine ⟨?_, h2, h3⟩
    split at h1
    · exact Or.inl h1
    · exact Or.inr h1

theorem run_counters : ∀ (ops : List Op) {cs s : cachedisk_state}, run cs ops = some s →
    (s.read_hit + s.read_miss) % UINT_RANGE
      = (cs.read_hit + cs.read_miss + num_reads ops) % UINT_RANGE ∧
    (s.write_hit + s.write_miss) % UINT_RANGE
      = (cs.write_hit + cs.write_miss + num_writes ops) % UINT_RANGE ∧
    (cs.read_hit + cs.read_miss + num_reads ops < UINT_RANGE →
      s.read_hit + s.read_miss = cs.read_hit + cs.read_miss + num_reads ops) ∧
    (cs.write_hit + cs.write_miss + num_writes ops < UINT_RANGE →
      s.write_hit + s.write_miss = cs.write_hit + cs.write_miss + num_writes ops) := by
  intro ops
  induction ops with
  | nil =>
    intro cs s h
    simp only [run, Option.some.injEq] at h
    subst h
    simp [num_reads, num_writes]
  | cons op ops ih =>
    intro cs s h
    obtain ⟨st, s1, out, h1, h2⟩ := run_cons_some h
    obtain ⟨a1, a2, a3, a4⟩ := ih h2
    have hc := step_counters h1
    cases op with
    | read a b =>
      simp only [num_reads, num_writes] at hc ⊢
      obtain ⟨hc1, hc2, hc3⟩ := hc
      rw [hc2, hc3] at a2 a4
      refine ⟨?_, a2, ?_, a4⟩
      · unfold incr UINT_RANGE at *
        omega
      · intro hlt
        unfold incr UINT_RANGE at *
        have := a3 (by omega)
        omega
    | write a b =>
      simp only [num_reads, num_writes] at hc ⊢
      obtain ⟨hc1, hc2, hc3⟩ := hc
      rw [hc2, hc3] at a1 a3
      refine ⟨a1, ?_, a3, ?_⟩
      · unfold incr UINT_RANGE at *
        omega
      · intro hlt
        unfold incr UINT_RANGE at *
        have := a4 (by omega)
        omega

theorem num_reads_replicate_read (a : block_no) (buf : block_t) (k : Nat) :
    num_reads (List.replicate k (Op.read a buf)) = k := by
  induction k with
  | zero => rfl
  | succ n ih => rw [List.replicate_succ, num_reads, ih]

/-- The state after `k + 1` reads in a row of an address the traversal finds: only
`read_hit` and the recency of the slot found have changed. -/
theorem run_replicate_read_hit (a : block_no) (buf : block_t) : ∀ (k : Nat)
    (cs : cachedisk_state), (lookup cs a).2 = true →
    run cs (List.replicate (k + 1) (Op.read a buf))
      = some { cs with
          read_hit := (cs.read_hit + (k + 1)) % UINT_RANGE,
          ages := Function.update cs.ages (lookup cs a).1
            ((cs.read_hit + (k + 1) + cs.read_miss + cs.write_hit + cs.write_miss)
              % UINT_RANGE) } := by
  intro k
  induction k with
  | zero =>
    intro cs hl
    have e : step cs (Op.read a buf)
        = Result.ret 0 (after_read_hit cs (lookup cs a).1) (cs.blocks (lookup cs a).1) :=
      read_hit_eq buf hl
    rw [List.replicate_succ, run_cons_of_step _ e]
    have h1 : ((cs.read_hit + 1) % UINT_RANGE + cs.read_miss + cs.write_hit + cs.write_miss)
        % UINT_RANGE
        = (cs.read_hit + 1 + cs.read_miss + cs.write_hit + cs.write_miss) % UINT_RANGE := by
      simp only [UINT_RANGE]
      omega
    simp only [List.replicate_zero, run, after_read_hit, stamp, incr, zero_add, h1]
  | succ n ih =>
    intro cs hl
    have e : step cs (Op.read a buf)
        = Result.ret 0 (after_read_hit cs (lookup cs a).1) (cs.blocks (lookup cs a).1) :=
      read_hit_eq buf hl
    have hl1 : lookup (after_read_hit cs (lookup cs a).1) a = lookup cs a := rfl
    rw [List.replicate_succ, run_cons_of_step _ e, ih _ (by rw [hl1]; exact hl), hl1]
    have h1 : ((cs.read_hit + 1) % UINT_RANGE + (n + 1)) % UINT_RANGE
        = (cs.read_hit + (n + 1 + 1)) % UINT_RANGE := by
      simp only [UINT_RANGE]
      omega
    have h2 : ((cs.read_hit + 1) % UINT_RANGE + (n + 1) + cs.read_miss + cs.write_hit
          + cs.write_miss) % UINT_RANGE
        = (cs.read_hit + (n + 1 + 1) + cs.read_miss + cs.write_hit + cs.write_miss)
          % UINT_RANGE := by
      simp only [UINT_RANGE]
      omega
    simp only [after_read_hit, stamp, incr, Function.update_idem, h1, h2]

/-- C6, amended. Hit/miss accounting on the 32-bit counters.  Every `cachedisk_read`
call, however it ends, applies `++` to exactly one of `read_hit` (when the traversal
finds the address) and `read_miss` (when it does not) and leaves `write_hit` and
`write_miss` unchanged; every `cachedisk_write` call does the same with the roles of
the read and write counters exchanged; `++` never leaves a counter unchanged, but it
wraps from `2^32 - 1` to 0.  Hence after `N` reads and `M` writes from a fresh cache,
`read_hit + read_miss` equals `N` modulo `2^32` and `write_hit + write_miss` equals `M`
modulo `2^32`; the sums are exactly `N` and `M` as long as `N < 2^32` and `M < 2^32`. -/
theorem hit_miss_accounting (below : block_store_t) (blocks : Nat → block_t)
    (nblocks : Nat) (ops : List Op) (s : cachedisk_state)
    (h : run (cachedisk_init below blocks nblocks) ops = some s) :
    (∀ (cs : cachedisk_state) (a : block_no) (buf : block_t),
      (if (lookup cs a).2 then
          (cachedisk_read cs a buf).cs.read_hit = incr cs.read_hit ∧
          (cachedisk_read cs a buf).cs.read_miss = cs.read_miss
        else
          (cachedisk_read cs a buf).cs.read_hit = cs.read_hit ∧
          (cachedisk_read cs a buf).cs.read_miss = incr cs.read_miss) ∧
      (cachedisk_read cs a buf).cs.write_hit = cs.write_hit ∧
      (cachedisk_read cs a buf).cs.write_miss = cs.write_miss) ∧
    (∀ (cs : cachedisk_state) (a : block_no) (v : block_t),
      (if (lookup cs a).2 then
          (cachedisk_write cs a v).cs.write_hit = incr cs.write_hit ∧
          (cachedisk_write cs a v).cs.write_miss = cs.write_miss
        else
          (cachedisk_write cs a v).cs.write_hit = cs.write_hit ∧
          (cachedisk_write cs a v).cs.write_miss = incr cs.write_miss) ∧
      (cachedisk_write cs a v).cs.read_hit = cs.read_hit ∧
      (cachedisk_write cs a v).cs.read_miss = cs.read_miss) ∧
    (∀ x, incr x ≠ x) ∧
    (s.read_hit + s.read_miss) % 4294967296 = num_reads ops % 4294967296 ∧
    (s.write_hit + s.write_miss) % 4294967296 = num_writes ops % 4294967296 ∧
    (num_reads ops < 4294967296 → s.read_hit + s.read_miss = num_reads ops) ∧
    (num_writes ops < 4294967296 → s.write_hit + s.write_miss = num_writes ops) := by
  obtain ⟨a1, a2, a3, a4⟩ := run_counters ops h
  simp only [cachedisk_init, zero_add, UINT_RANGE] at a1 a2 a3 a4
  exact ⟨read_counters, write_counters, incr_ne_self, a1, a2, a3, a4⟩

/-- Witness for C6: the six requests of the two-slot scenario, three reads and three
writes. -/
theorem hit_miss_accounting_witness :
    run (cachedisk_init (ideal_store (fun _ => [])) (fun _ => []) 2) scenario
      = some (state_after (fresh 2) scenario) ∧
    (state_after (fresh 2) scenario).read_hit + (state_after (fresh 2) scenario).read_miss
      = num_reads scenario ∧
    (state_after (fresh 2) scenario).write_hit + (state_after (fresh 2) scenario).write_miss
      = num_writes scenario ∧
    num_reads scenario = 3 ∧ num_writes scenario = 3 :=
  ⟨rfl,
    (hit_miss_accounting (ideal_store (fun _ => [])) (fun _ => []) 2 scenario
      (state_after (fresh 2) scenario) rfl).2.2.2.2.2.1 (by decide),
    (hit_miss_accounting (ideal_store (fun _ => [])) (fun _ => []) 2 scenario
      (state_after (fresh 2) scenario) rfl).2.2.2.2.2.2 (by decide),
    by decide, by decide⟩

/-- Counterexample to C6 as stated: `2^32 + 1` reads of address 0 on a fresh one-slot
cache all return (one miss, then `2^32` hits), and afterwards `read_hit` is 0 and
`read_miss` is 1, so `read_hit + read_miss` is 1, not the number of reads. -/
theorem accounting_wraps_around :
    num_reads (List.replicate 4294967297 (Op.read 0 [])) = 4294967297 ∧
    (run (fresh 1) (List.replicate 4294967297 (Op.read 0 []))).map stats
      = some (0, 1, 0, 0) := by
  refine ⟨num_reads_replicate_read 0 [] 4294967297, ?_⟩
  have e : step (fresh 1) (Op.read 0 [])
      = Result.ret 0 (state_after (fresh 1) [Op.read 0 []]) [] := rfl
  have hl : (lookup (state_after (fresh 1) [Op.read 0 []]) 0).2 = true := by decide
  have hr := run_replicate_read_hit 0 [] 4294967295 (state_after (fresh 1) [Op.read 0 []]) hl
  have hsplit : List.replicate 4294967297 (Op.read 0 [])
      = Op.read 0 [] :: List.replicate (4294967295 + 1) (Op.read 0 []) :=
    List.replicate_succ (Op.read 0 []) 4294967296
  rw [hsplit, run_cons_of_step _ e, hr]
  decide

/-- Counterexample to C7 as stated: on a fresh one-slot cache `write(0, [1])` followed
by `2^32 - 1` reads of address 0 all return (one write miss, then `2^32 - 1` read
hits) and leave `read_hit` at `2^32 - 1`; the `write(0, [2])` that follows returns, and
the `read(0)` right after it returns `[2]` as a hit, but leaves `read_hit` at 0, not at
`read_hit + 1`. -/
theorem read_hit_wraps_after_write :
    ∃ s0 s1 s2,
      run (fresh 1) (Op.write 0 [1] :: List.replicate 4294967295 (Op.read 0 [])) = some s0 ∧
      cachedisk_write s0 0 [2] = Result.ret 0 s1 [2] ∧
      cachedisk_read s1 0 [] = Result.ret 0 s2 [2] ∧
      s1.read_hit = 4294967295 ∧ s2.read_hit = 0 ∧ s2.read_hit ≠ s1.read_hit + 1 ∧
      s2.read_miss = s1.read_miss := by
  have e : step (fresh 1) (Op.write 0 [1])
      = Result.ret 0 (state_after (fresh 1) [Op.write 0 [1]]) [1] := rfl
  have hl : (lookup (state_after (fresh 1) [Op.write 0 [1]]) 0).2 = true := by decide
  have hr := run_replicate_read_hit 0 [] 4294967294 (state_after (fresh 1) [Op.write 0 [1]]) hl
  have hrun : run (fresh 1) (Op.write 0 [1] :: List.replicate 4294967295 (Op.read 0 []))
      = run (state_after (fresh 1) [Op.write 0 [1]])
          (List.replicate (4294967294 + 1) (Op.read 0 [])) :=
    run_cons_of_step _ e
  exact ⟨_, _, _, hrun.trans hr, by rfl, by rfl, by decide, by decide, by decide, by decide⟩

/-! ## Recency -/

theorem last_access_snoc (op : Op) (a : block_no) : ∀ (ops : List Op),
    last_access (ops ++ [op]) a
      = if op.offset = a then ops.length + 1 else last_access ops a := by
  intro ops
  induction ops with
  | nil => simp [last_access]
  | cons p ops ih =>
    have e1 : last_access (p :: (ops ++ [op])) a
        = if last_access (ops ++ [op]) a = 0 then (if p.offset = a then 1 else 0)
          else last_access (ops ++ [op]) a + 1 := rfl
    have e2 : last_access (p :: ops) a
        = if last_access ops a = 0 then (if p.offset = a then 1 else 0)
          else last_access ops a + 1 := rfl
    rw [List.cons_append, e1, e2, ih, List.length_cons]
    by_cases h : op.offset = a
    · simp [h]
    · simp [h]

theorem last_access_le_length (a : block_no) : ∀ (ops : List Op),
    last_access ops a ≤ ops.length := by
  intro ops
  induction ops with
  | nil => simp [last_access]
  | cons p ops ih =>
    simp only [last_access, List.length_cons]
    split
    · split <;> omega
    · omega

/-- Two addresses whose last requests carry the same ordinal number are the same. -/
theorem last_access_inj {a b : block_no} : ∀ (ops : List Op),
    last_access ops a = last_access ops b → last_access ops a ≠ 0 → a = b := by
  intro ops
  induction ops with
  | nil =>
    intro _ h
    exact absurd rfl h
  | cons p ops ih =>
    intro he hne
    simp only [last_access] at he hne
    by_cases ha : last_access ops a = 0 <;> by_cases hb : last_access ops b = 0
    · rw [if_pos ha] at he hne
      rw [if_pos hb] at he
      by_cases hpa : p.offset = a
      · by_cases hpb : p.offset = b
        · rw [← hpa, ← hpb]
        · rw [if_pos hpa, if_neg hpb] at he
          omega
      · rw [if_neg hpa] at hne
        exact absurd rfl hne
    · rw [if_pos ha] at he
      rw [if_neg hb] at he
      split at he <;> omega
    · rw [if_neg ha] at he
      rw [if_pos hb] at he
      split at he <;> omega
    · rw [if_neg ha] at he
      rw [if_neg hb] at he
      exact ih (by omega) ha

/-- Every returned request stores into one slot `k`: it binds `k` to the address of
the request (on a hit the slot is bound to it already) and stamps it; no other
occupied slot is bound to that address. -/
theorem step_slot {cs s1 : cachedisk_state} {op : Op} {st : Int} {out : block_t}
    (hn : no_duplicate cs) (h : step cs op = Result.ret st s1 out) :
    ∃ k, k < cs.nblocks ∧
      s1.nblocks = cs.nblocks ∧
      s1.metadata = Function.update cs.metadata k op.offset ∧
      s1.blocks = Function.update cs.blocks k out ∧
      s1.ages = Function.update cs.ages k (stamp s1) ∧
      stamp s1 = (stamp cs + 1) % UINT_RANGE ∧
      (∀ j, occupied cs j → j ≠ k → cs.metadata j ≠ op.offset) ∧
      (((lookup cs op.offset).2 = true ∧ k = (lookup cs op.offset).1) ∨
       ((lookup cs op.offset).2 = false ∧ k = victim cs)) := by
  have hit_other : (lookup cs op.offset).2 = true →
      ∀ j, occupied cs j → j ≠ (lookup cs op.offset).1 → cs.metadata j ≠ op.offset := by
    intro hl j hj hjk he
    obtain ⟨l1, l2, _⟩ := lookup_hit hl
    exact hjk (hn j _ hj ⟨l1, by rw [l2, ← he]; exact hj.2⟩ (by rw [l2, he]))
  cases op with
  | read a b =>
    obtain ⟨_, h4⟩ := read_ret_cases h
    rcases h4 with ⟨hl, rfl, rfl⟩ | ⟨hl, _, hv, rfl, rfl⟩
    · obtain ⟨l1, l2, _⟩ := lookup_hit hl
      refine ⟨(lookup cs a).1, l1, rfl, ?_, ?_, rfl, ?_, hit_other hl, Or.inl ⟨hl, rfl⟩⟩
      · have e := Function.update_eq_self (lookup cs a).1 cs.metadata
        rw [l2] at e
        exact e.symm
      · simp only [after_read_hit]
        rw [Function.update_eq_self]
      · simp only [after_read_hit, stamp, incr, UINT_RANGE]
        omega
    · refine ⟨victim cs, hv, rfl, rfl, rfl, rfl, ?_, ?_, Or.inr ⟨hl, rfl⟩⟩
      · simp only [fill_slot, after_dev_read, stamp, incr, UINT_RANGE]
        omega
      · intro j hj _
        exact lookup_miss hl j hj.1
  | write a b =>
    obtain ⟨_, ho, _, h4⟩ := write_ret_cases h
    rcases h4 with ⟨hl, rfl⟩ | ⟨hl, hv, rfl⟩
    · obtain ⟨l1, l2, _⟩ := lookup_hit hl
      refine ⟨(lookup cs a).1, l1, rfl, ?_, ?_, rfl, ?_, hit_other hl, Or.inl ⟨hl, rfl⟩⟩
      · have e := Function.update_eq_self (lookup cs a).1 cs.metadata
        rw [l2] at e
        exact e.symm
      · rw [ho]
        rfl
      · simp only [after_write_hit, stamp, incr, UINT_RANGE]
        omega
    · refine ⟨victim cs, hv, rfl, rfl, ?_, rfl, ?_, ?_, Or.inr ⟨hl, rfl⟩⟩
      · rw [ho]
        rfl
      · simp only [fill_slot, after_dev_write, stamp, incr, UINT_RANGE]
        omega
      · intro j hj _
        exact lookup_miss hl j hj.1

theorem init_stamped (below : block_store_t) (blocks : Nat → block_t) (nblocks : Nat) :
    stamped [] (cachedisk_init below blocks nblocks) := by
  refine ⟨rfl, ?_⟩
  intro i hi
  exact absurd rfl hi.2

theorem step_stamped {cs s1 : cachedisk_state} {op : Op} {st : Int} {out : block_t}
    {pre : List Op} (hs : stamped pre cs) (hn : no_duplicate cs)
    (h : step cs op = Result.ret st s1 out) : stamped (pre ++ [op]) s1 := by
  obtain ⟨k, hk, hnb, hmd, _, hag, hst, hoth, _⟩ := step_slot hn h
  obtain ⟨hs1, hs2⟩ := hs
  have hst2 : stamp s1 = (pre.length + 1) % UINT_RANGE := by
    rw [hst, hs1]
    simp only [UINT_RANGE]
    omega
  constructor
  · rw [hst2, List.length_append]
    rfl
  · intro i hi
    obtain ⟨hi1, hi2⟩ := hi
    rw [hnb] at hi1
    rw [hmd] at hi2 ⊢
    rw [hag]
    by_cases hik : i = k
    · rw [hik, Function.update_same, Function.update_same, last_access_snoc, if_pos rfl]
      exact ⟨by omega, hst2⟩
    · rw [Function.update_noteq hik] at hi2 ⊢
      rw [Function.update_noteq hik, last_access_snoc,
        if_neg (Ne.symm (hoth i ⟨hi1, hi2⟩ hik))]
      exact hs2 i ⟨hi1, hi2⟩

theorem run_stamped : ∀ (ops pre : List Op) {cs s : cachedisk_state},
    stamped pre cs → no_duplicate cs → run cs ops = some s → stamped (pre ++ ops) s := by
  intro ops
  induction ops with
  | nil =>
    intro pre cs s hs _ h
    simp only [run, Option.some.injEq] at h
    subst h
    rw [List.append_nil]
    exact hs
  | cons op ops ih =>
    intro pre cs s hs hn h
    obtain ⟨st, s1, out, h1, h2⟩ := run_cons_some h
    have := ih (pre ++ [op]) (step_stamped hs hn h1) (step_no_duplicate hn h1) h2
    rw [List.append_assoc] at this
    exact this

theorem last_access_append_reads (a : block_no) (buf : block_t) (pre : List Op) :
    ∀ (k : Nat),
    last_access (pre ++ List.replicate (k + 1) (Op.read a buf)) a = pre.length + (k + 1) ∧
    ∀ b, a ≠ b →
      last_access (pre ++ List.replicate (k + 1) (Op.read a buf)) b = last_access pre b := by
  have ho : (Op.read a buf).offset = a := rfl
  intro k
  induction k with
  | zero =>
    constructor
    · rw [List.replicate_succ, List.replicate_zero, last_access_snoc, ho, if_pos rfl]
    · intro b hb
      rw [List.replicate_succ, List.replicate_zero, last_access_snoc, ho, if_neg hb]
  | succ n ih =>
    constructor
    · rw [List.replicate_succ', ← List.append_assoc, last_access_snoc, ho, if_pos rfl,
        List.length_append, List.length_replicate]
      omega
    · intro b hb
      rw [List.replicate_succ', ← List.append_assoc, last_access_snoc, ho, if_neg hb]
      exact ih.2 b hb

/-! ## Eviction -/

/-- C3, amended. LRU eviction while the 32-bit recency stamps have not wrapped around.
Start from `cachedisk_init` and let fewer than `2^32` requests `ops` return; let every
slot be occupied and let the next request `op` (read or write) name an address that
no slot holds.  When `op` returns, the one slot `k` it has overwritten, which is the
slot whose index `find_LRU_index` returns, was bound to the address whose last access
(read or write, hit or insertion) is older than the last access of the address of
every other slot. -/
theorem lru_eviction (below : block_store_t) (blocks : Nat → block_t) (nblocks : Nat)
    (ops : List Op) (op : Op) (s : cachedisk_state) (st : Int) (s1 : cachedisk_state)
    (out : block_t)
    (hlen : ops.length < 4294967296)
    (hrun : run (cachedisk_init below blocks nblocks) ops = some s)
    (hfull : ∀ i, i < s.nblocks → s.metadata i ≠ NO_BLOCK)
    (hmiss : ∀ i, i < s.nblocks → s.metadata i ≠ op.offset)
    (hstep : step s op = Result.ret st s1 out) :
    ∃ k, k < s.nblocks ∧ (k : Int) = find_LRU_index s ∧
      s1.metadata = Function.update s.metadata k op.offset ∧
      s1.blocks = Function.update s.blocks k out ∧
      s1.ages = Function.update s.ages k (stamp s1) ∧
      0 < last_access ops (s.metadata k) ∧
      ∀ i, i < s.nblocks → i ≠ k →
        last_access ops (s.metadata k) < last_access ops (s.metadata i) := by
  have hn := (run_invariants ops (init_no_duplicate below blocks nblocks)
    (init_coherent below blocks nblocks) hrun).1
  have hs := run_stamped ops [] (init_stamped below blocks nblocks)
    (init_no_duplicate below blocks nblocks) hrun
  rw [List.nil_append] at hs
  obtain ⟨k, hk, _, hmd, hbl, hag, _, _, hcase⟩ := step_slot hn hstep
  have hkv : k = find_LRU_least s ∧ (k : Int) = find_LRU_index s := by
    rcases hcase with ⟨hl, _⟩ | ⟨hl, hv⟩
    · obtain ⟨l1, l2, _⟩ := lookup_hit hl
      exact absurd l2 (hmiss _ l1)
    · rw [hv]
      exact victim_of_full hfull (step_can_store hl hstep)
  have hage : ∀ i, i < s.nblocks →
      last_access ops (s.metadata i) ≠ 0 ∧ s.ages i = last_access ops (s.metadata i) := by
    intro i hi
    obtain ⟨h1, h2⟩ := hs.2 i ⟨hi, hfull i hi⟩
    refine ⟨h1, ?_⟩
    rw [h2]
    apply Nat.mod_eq_of_lt
    have := last_access_le_length (s.metadata i) ops
    simp only [UINT_RANGE]
    omega
  refine ⟨k, hk, hkv.2, hmd, hbl, hag, Nat.pos_of_ne_zero (hage k hk).1, ?_⟩
  intro i hi hik
  have hle := (find_LRU_least_spec s (by omega)).2.1 i hi
  rw [← hkv.1, (hage k hk).2, (hage i hi).2] at hle
  rcases Nat.lt_or_eq_of_le hle with hlt | heq
  · exact hlt
  · exact absurd (hn i k ⟨hi, hfull i hi⟩ ⟨hk, hfull k hk⟩
      (last_access_inj ops heq (hage k hk).1).symm) hik

/-- Witness for C3: two slots, `write(0, "A")`, `write(1, "B")`, `read(0)` fill the cache
and touch address 0 again; the miss `write(2, "C")` then overwrites slot 1, bound to
address 1, whose last access (request 2) is older than that of address 0
(request 3). -/
theorem lru_eviction_witness :
    (scenario.take 3).length < 4294967296 ∧
    run (cachedisk_init (ideal_store (fun _ => [])) (fun _ => []) 2) (scenario.take 3)
      = some (state_after (fresh 2) (scenario.take 3)) ∧
    (∀ i, i < (state_after (fresh 2) (scenario.take 3)).nblocks →
      (state_after (fresh 2) (scenario.take 3)).metadata i ≠ NO_BLOCK) ∧
    (∀ i, i < (state_after (fresh 2) (scenario.take 3)).nblocks →
      (state_after (fresh 2) (scenario.take 3)).metadata i ≠ (Op.write 2 [67]).offset) ∧
    step (state_after (fresh 2) (scenario.take 3)) (Op.write 2 [67])
      = Result.ret 0 (state_after (fresh 2) (scenario.take 4)) [67] ∧
    find_LRU_index (state_after (fresh 2) (scenario.take 3)) = 1 ∧
    bindings (state_after (fresh 2) (scenario.take 3)) = [0, 1] ∧
    bindings (state_after (fresh 2) (scenario.take 4)) = [0, 2] ∧
    last_access (scenario.take 3) 0 = 3 ∧ last_access (scenario.take 3) 1 = 2 ∧
    (∃ k, k < (state_after (fresh 2) (scenario.take 3)).nblocks ∧
      (k : Int) = find_LRU_index (state_after (fresh 2) (scenario.take 3)) ∧
      (state_after (fresh 2) (scenario.take 4)).metadata
        = Function.update (state_after (fresh 2) (scenario.take 3)).metadata k
            (Op.write 2 [67]).offset ∧
      (state_after (fresh 2) (scenario.take 4)).blocks
        = Function.update (state_after (fresh 2) (scenario.take 3)).blocks k [67] ∧
      (state_after (fresh 2) (scenario.take 4)).ages
        = Function.update (state_after (fresh 2) (scenario.take 3)).ages k
            (stamp (state_after (fresh 2) (scenario.take 4))) ∧
      0 < last_access (scenario.take 3)
            ((state_after (fresh 2) (scenario.take 3)).metadata k) ∧
      ∀ i, i < (state_after (fresh 2) (scenario.take 3)).nblocks → i ≠ k →
        last_access (scenario.take 3) ((state_after (fresh 2) (scenario.take 3)).metadata k)
          < last_access (scenario.take 3)
              ((state_after (fresh 2) (scenario.take 3)).metadata i)) :=
  ⟨by decide, rfl, by decide, by decide, rfl, by decide, by decide, by decide, by decide,
    by decide,
    lru_eviction (ideal_store (fun _ => [])) (fun _ => []) 2 (scenario.take 3)
      (Op.write 2 [67]) (state_after (fresh 2) (scenario.take 3)) 0
      (state_after (fresh 2) (scenario.take 4)) [67]
      (by decide) rfl (by decide) (by decide) rfl⟩

/-- Counterexample to C3 as stated, once the 32-bit stamps wrap around.  On a fresh
two-slot cache the `2^32` requests `wrap_ops` all return and leave slot 0 bound to
address 0 with recency 0 (the stamp `2^32` of the last read, reduced modulo `2^32`) and
slot 1 bound to address 1 with recency 2.  Both slots are occupied and address 2 is
not cached; `write(2, "C")` then overwrites slot 0: it evicts address 0, whose last
access is the request just before (number `2^32`), and keeps address 1, whose last
access is request number 2. -/
theorem lru_fails_after_wraparound :
    wrap_ops.length = 4294967296 ∧
    (run (fresh 2) wrap_ops).map observe = some ((4294967294, 0, 0, 2), [0, 1]) ∧
    (run (fresh 2) wrap_ops).map recencies = some [0, 2] ∧
    last_access wrap_ops 0 = 4294967296 ∧
    last_access wrap_ops 1 = 2 ∧
    (run (fresh 2) (wrap_ops ++ [Op.write 2 [67]])).map observe
      = some ((4294967294, 0, 0, 3), [2, 1]) := by
  have hl : (lookup (state_after (fresh 2) [Op.write 0 [65], Op.write 1 [66]]) 0).2 = true := by
    decide
  have h2 : run (fresh 2) [Op.write 0 [65], Op.write 1 [66]]
      = some (state_after (fresh 2) [Op.write 0 [65], Op.write 1 [66]]) := rfl
  have hr := run_replicate_read_hit 0 [] 4294967293
    (state_after (fresh 2) [Op.write 0 [65], Op.write 1 [66]]) hl
  have hla := last_access_append_reads 0 [] [Op.write 0 [65], Op.write 1 [66]] 4294967293
  have hsplit : run (fresh 2) wrap_ops
      = run (state_after (fresh 2) [Op.write 0 [65], Op.write 1 [66]])
          (List.replicate (4294967293 + 1) (Op.read 0 [])) := by
    rw [wrap_ops, run_append, h2, Option.some_bind]
  have hrun := hsplit.trans hr
  refine ⟨?_, ?_, ?_, ?_, ?_, ?_⟩
  · rw [wrap_ops, List.length_append, List.length_replicate]
    rfl
  · rw [hrun]
    decide
  · rw [hrun]
    decide
  · rw [wrap_ops]
    exact hla.1
  · rw [wrap_ops]
    exact hla.2 1 (by decide)
  · rw [run_append, hrun, Option.some_bind]
    decide

/-! ## Victim selection and insertion -/

theorem huge_state_ages (i : Nat) :
    huge_state.ages i = if i = 2147483648 then 1 else 2 := rfl

theorem huge_state_metadata (i : Nat) : huge_state.metadata i = i := rfl

theorem huge_state_nblocks : huge_state.nblocks = 2147483649 := rfl

theorem huge_state_least : find_LRU_least huge_state = 2147483648 := by
  have h1 : 0 < huge_state.nblocks := by
    rw [huge_state_nblocks]
    omega
  have h2 : 2147483648 < huge_state.nblocks := by
    rw [huge_state_nblocks]
    omega
  have hk := (find_LRU_least_spec huge_state h1).2.1 2147483648 h2
  rw [huge_state_ages, huge_state_ages, if_pos rfl] at hk
  by_cases he : find_LRU_least huge_state = 2147483648
  · exact he
  · rw [if_neg he] at hk
    omega

theorem huge_state_lookup_miss {a : Nat} (ha : 2147483649 ≤ a) :
    (lookup huge_state a).2 = false := by
  cases hb : (lookup huge_state a).2 with
  | false => rfl
  | true =>
    obtain ⟨l1, l2, _⟩ := lookup_hit hb
    rw [huge_state_nblocks] at l1
    rw [huge_state_metadata] at l2
    have l3 : ((lookup huge_state a).1 : Nat) = a := l2
    omega

theorem huge_state_cannot_store : can_store huge_state = false := by
  cases hb : can_store huge_state with
  | false => rfl
  | true =>
    rcases (can_store_iff huge_state).mp hb with he | ⟨_, hlt⟩
    · have hm : (lookup huge_state NO_BLOCK).2 = false :=
        huge_state_lookup_miss (by unfold NO_BLOCK; omega)
      rw [find_empty_eq_lookup, hm] at he
      cases he
    · rw [huge_state_least] at hlt
      omega

/-- In `huge_state` a read of an address that is not cached is answered by the store
below and then stores at index `-2^31`. -/
theorem huge_state_read_eq :
    cachedisk_read huge_state 4294967294 []
      = Result.fault (after_dev_read huge_state 4294967294) := by
  have hl : (lookup huge_state 4294967294).2 = false :=
    huge_state_lookup_miss (by omega)
  have hd : huge_state.below.rd_ok 4294967294 = true := rfl
  have hc : can_store (after_dev_read huge_state 4294967294) = false :=
    huge_state_cannot_store
  rw [read_miss_ok_eq [] hl hd, insert_block, hc]
  rfl

theorem huge_state_full (i : Nat) (hi : i < huge_state.nblocks) :
    huge_state.metadata i ≠ NO_BLOCK := by
  rw [huge_state_nblocks] at hi
  intro h
  rw [huge_state_metadata] at h
  have h2 : i = 4294967295 := h
  omega

/-- C15, evaluated where it fails.  In every state the loop of `find_LRU_index` ends
with `least` the lowest index among the slots of minimum recency (capacity `≥ 1`), and
with between 1 and `2^31` slots this is the number the function returns.  The function
returns `int`, though: on the full cache `huge_state` of `2^31 + 1` slots, whose least
recently used slot is slot `2^31`, the loop finds `2^31` and the function returns
`-2^31`, which is the index of no slot; a read that misses in that state then stores
outside the arrays. -/
theorem find_LRU_index_least :
    (∀ (cs : cachedisk_state), 1 ≤ cs.nblocks →
      find_LRU_least cs < cs.nblocks ∧
      (∀ i, i < cs.nblocks → cs.ages (find_LRU_least cs) ≤ cs.ages i) ∧
      (∀ j, j < find_LRU_least cs → cs.ages j > cs.ages (find_LRU_least cs))) ∧
    (∀ (cs : cachedisk_state), 1 ≤ cs.nblocks → cs.nblocks ≤ 2147483648 →
      find_LRU_index cs = (find_LRU_least cs : Int)) ∧
    find_LRU_index (state_after (fresh 2) (scenario.take 3)) = 1 ∧
    huge_state.nblocks = 2147483649 ∧
    (∀ i, i < huge_state.nblocks → huge_state.metadata i ≠ NO_BLOCK) ∧
    find_LRU_least huge_state = 2147483648 ∧
    find_LRU_index huge_state = -2147483648 ∧
    (cachedisk_read huge_state 4294967294 []).faulted = true := by
  refine ⟨fun cs h => find_LRU_least_spec cs h,
    fun cs h1 h2 => find_LRU_index_of_bounds cs h1 h2, by decide, rfl, huge_state_full,
    huge_state_least, ?_, ?_⟩
  · unfold find_LRU_index
    rw [huge_state_least]
    decide
  · rw [huge_state_read_eq]
    rfl

/-- Which slot `victim` is: the lowest empty slot when there is one, the slot
`find_LRU_index` returns when every slot is occupied. -/
theorem victim_cases (cs : cachedisk_state) :
    ((∃ i, i < cs.nblocks ∧ cs.metadata i = NO_BLOCK) →
      cs.metadata (victim cs) = NO_BLOCK ∧ ∀ j, j < victim cs → cs.metadata j ≠ NO_BLOCK) ∧
    ((∀ i, i < cs.nblocks → cs.metadata i ≠ NO_BLOCK) → can_store cs = true →
      ((victim cs : Nat) : Int) = find_LRU_index cs) := by
  refine ⟨?_, fun hfull hcan => (victim_of_full hfull hcan).2⟩
  unfold victim
  cases he : (find_empty cs).2 with
  | true =>
    rw [find_empty_eq_lookup] at he
    obtain ⟨l1, l2, l3⟩ := lookup_hit he
    intro _
    rw [find_empty_eq_lookup]
    refine ⟨?_, ?_⟩
    · simpa using l2
    · simpa using l3
  | false =>
    rw [find_empty_eq_lookup] at he
    rintro ⟨i, hi, hm⟩
    exact absurd hm (lookup_miss he i hi)

/-- A returned miss binds the slot `victim` and nothing else. -/
theorem step_miss {cs s1 : cachedisk_state} {op : Op} {st : Int} {out : block_t}
    (hmiss : (lookup cs op.offset).2 = false)
    (h : step cs op = Result.ret st s1 out) :
    victim cs < cs.nblocks ∧
    s1.metadata = Function.update cs.metadata (victim cs) op.offset ∧
    s1.blocks = Function.update cs.blocks (victim cs) out ∧
    s1.ages = Function.update cs.ages (victim cs) (stamp s1) := by
  cases op with
  | read a b =>
    obtain ⟨_, h4⟩ := read_ret_cases h
    rcases h4 with ⟨hl, _, _⟩ | ⟨_, _, hv, rfl, rfl⟩
    · rw [show (Op.read a b).offset = a from rfl, hl] at hmiss
      cases hmiss
    · exact ⟨hv, rfl, rfl, rfl⟩
  | write a b =>
    obtain ⟨_, ho, _, h4⟩ := write_ret_cases h
    rcases h4 with ⟨hl, _⟩ | ⟨_, hv, rfl⟩
    · rw [show (Op.write a b).offset = a from rfl, hl] at hmiss
      cases hmiss
    · rw [ho]
      exact ⟨hv, rfl, rfl, rfl⟩

/-- C16. Empty slot before eviction: when a read or write that misses returns, it has
stored into exactly one slot `k`, which now holds the address and the block of the
request; every other slot keeps its address, data and recency.  If at least one slot
was empty, `k` is the empty slot of lowest index, so no occupied slot lost its
binding; only if no slot was empty is `k` the number `find_LRU_index` returns. -/
theorem empty_slot_before_eviction (cs : cachedisk_state) (op : Op) (st : Int)
    (s1 : cachedisk_state) (out : block_t)
    (hmiss : (lookup cs op.offset).2 = false)
    (hstep : step cs op = Result.ret st s1 out) :
    ∃ k, k < cs.nblocks ∧
      s1.metadata k = op.offset ∧ s1.blocks k = out ∧ s1.ages k = stamp s1 ∧
      (∀ j, j ≠ k → s1.metadata j = cs.metadata j ∧ s1.blocks j = cs.blocks j ∧
        s1.ages j = cs.ages j) ∧
      ((∃ i, i < cs.nblocks ∧ cs.metadata i = NO_BLOCK) →
        cs.metadata k = NO_BLOCK ∧ (∀ j, j < k → cs.metadata j ≠ NO_BLOCK) ∧
        ∀ i, i < cs.nblocks → cs.metadata i ≠ NO_BLOCK → s1.metadata i = cs.metadata i) ∧
      ((∀ i, i < cs.nblocks → cs.metadata i ≠ NO_BLOCK) →
        (k : Int) = find_LRU_index cs) := by
  obtain ⟨hv, hmd, hbl, hag⟩ := step_miss hmiss hstep
  obtain ⟨hc1, hc2⟩ := victim_cases cs
  refine ⟨victim cs, hv, ?_, ?_, ?_, ?_, ?_,
    fun hfull => hc2 hfull (step_can_store hmiss hstep)⟩
  · rw [hmd, Function.update_same]
  · rw [hbl, Function.update_same]
  · rw [hag, Function.update_same]
  · intro j hj
    rw [hmd, hbl, hag]
    exact ⟨Function.update_noteq hj _ _, Function.update_noteq hj _ _,
      Function.update_noteq hj _ _⟩
  · intro hex
    obtain ⟨e1, e2⟩ := hc1 hex
    refine ⟨e1, e2, ?_⟩
    intro i _ hocc
    have hne : i ≠ victim cs := by
      intro he
      rw [he] at hocc
      exact hocc e1
    rw [hmd]
    exact Function.update_noteq hne _ _

/-- Witness for C16: in the two-slot scenario the second request, a write miss with
slot 1 still empty, takes slot 1 and leaves slot 0 alone, although `find_LRU_index`
would return slot 0. -/
theorem empty_slot_before_eviction_witness :
    (lookup (state_after (fresh 2) (scenario.take 1)) (Op.write 1 [66]).offset).2 = false ∧
    step (state_after (fresh 2) (scenario.take 1)) (Op.write 1 [66])
      = Result.ret 0 (state_after (fresh 2) (scenario.take 2)) [66] ∧
    bindings (state_after (fresh 2) (scenario.take 1)) = [0, NO_BLOCK] ∧
    bindings (state_after (fresh 2) (scenario.take 2)) = [0, 1] ∧
    find_LRU_index (state_after (fresh 2) (scenario.take 1)) = 0 ∧
    ∃ k, k < (state_after (fresh 2) (scenario.take 1)).nblocks ∧
      (state_after (fresh 2) (scenario.take 2)).metadata k = (Op.write 1 [66]).offset ∧
      (state_after (fresh 2) (scenario.take 2)).blocks k = [66] ∧
      (state_after (fresh 2) (scenario.take 2)).ages k
        = stamp (state_after (fresh 2) (scenario.take 2)) ∧
      (∀ j, j ≠ k →
        (state_after (fresh 2) (scenario.take 2)).metadata j
          = (state_after (fresh 2) (scenario.take 1)).metadata j ∧
        (state_after (fresh 2) (scenario.take 2)).blocks j
          = (state_after (fresh 2) (scenario.take 1)).blocks j ∧
        (state_after (fresh 2) (scenario.take 2)).ages j
          = (state_after (fresh 2) (scenario.take 1)).ages j) ∧
      ((∃ i, i < (state_after (fresh 2) (scenario.take 1)).nblocks ∧
          (state_after (fresh 2) (scenario.take 1)).metadata i = NO_BLOCK) →
        (state_after (fresh 2) (scenario.take 1)).metadata k = NO_BLOCK ∧
        (∀ j, j < k → (state_after (fresh 2) (scenario.take 1)).metadata j ≠ NO_BLOCK) ∧
        ∀ i, i < (state_after (fresh 2) (scenario.take 1)).nblocks →
          (state_after (fresh 2) (scenario.take 1)).metadata i ≠ NO_BLOCK →
          (state_after (fresh 2) (scenario.take 2)).metadata i
            = (state_after (fresh 2) (scenario.take 1)).metadata i) ∧
      ((∀ i, i < (state_after (fresh 2) (scenario.take 1)).nblocks →
          (state_after (fresh 2) (scenario.take 1)).metadata i ≠ NO_BLOCK) →
        (k : Int) = find_LRU_index (state_after (fresh 2) (scenario.take 1))) :=
  ⟨by decide, rfl, by decide, by decide, by decide,
    empty_slot_before_eviction (state_after (fresh 2) (scenario.take 1)) (Op.write 1 [66]) 0
      (state_after (fresh 2) (scenario.take 2)) [66] (by decide) rfl⟩

/-- C18. Write-miss insertion equals read-miss insertion: in every state in which the
traversal does not find address `A`, when the store below holds `V` at `A`, a
`cachedisk_read(A)` that returns and a `cachedisk_write(A, V)` that returns have
stored into the same slot `k` and leave the same `metadata`, `blocks` and `ages`
tables; the read has incremented `read_miss` only and the write `write_miss` only, and
the stores below differ only in the call recorded (a read, a write of `V` at `A`). -/
theorem write_miss_inserts_as_read_miss (cs : cachedisk_state) (A : block_no)
    (V buf : block_t) (str stw : Int) (sr sw : cachedisk_state) (outr outw : block_t)
    (hmiss : (lookup cs A).2 = false)
    (hdev : cs.below.data A = V)
    (hr : cachedisk_read cs A buf = Result.ret str sr outr)
    (hw : cachedisk_write cs A V = Result.ret stw sw outw) :
    outr = V ∧
    (∃ k, k < cs.nblocks ∧
      target cs (Op.read A buf) = k ∧ target cs (Op.write A V) = k ∧
      sr.metadata = Function.update cs.metadata k A ∧
      sr.blocks = Function.update cs.blocks k V ∧
      sr.ages = Function.update cs.ages k (stamp sr)) ∧
    sr.metadata = sw.metadata ∧ sr.blocks = sw.blocks ∧ sr.ages = sw.ages ∧
    sr.nblocks = sw.nblocks ∧
    sr.read_hit = sw.read_hit ∧ sr.write_hit = sw.write_hit ∧
    sr.read_miss = incr cs.read_miss ∧ sr.write_miss = cs.write_miss ∧
    sw.read_miss = cs.read_miss ∧ sw.write_miss = incr cs.write_miss ∧
    sr.below.data = sw.below.data ∧
    sr.below.calls = cs.below.calls ++ [dev_call.rd A] ∧
    sw.below.calls = cs.below.calls ++ [dev_call.wr A V] := by
  obtain ⟨_, h4⟩ := read_ret_cases hr
  obtain ⟨_, _, _, h5⟩ := write_ret_cases hw
  rcases h4 with ⟨hl, _, _⟩ | ⟨_, _, hv, rfl, rfl⟩
  · rw [hl] at hmiss
    cases hmiss
  rcases h5 with ⟨hl, _⟩ | ⟨_, _, rfl⟩
  · rw [hl] at hmiss
    cases hmiss
  have hst : stamp (after_dev_read cs A) = stamp (after_dev_write cs A V) := by
    simp only [stamp, after_dev_read, after_dev_write, incr, UINT_RANGE]
    omega
  have ht1 : target cs (Op.read A buf) = victim cs := by
    simp [target, Op.offset, hmiss]
  have ht2 : target cs (Op.write A V) = victim cs := by
    simp [target, Op.offset, hmiss]
  refine ⟨hdev, ⟨victim cs, hv, ht1, ht2, rfl, ?_, rfl⟩, rfl, ?_, ?_, rfl, rfl, rfl, rfl,
    rfl, rfl, rfl, ?_, rfl, rfl⟩
  · simp only [fill_slot, after_dev_read, hdev]
  · simp only [fill_slot, after_dev_read, after_dev_write, hdev]
  · simp only [fill_slot]
    rw [hst]
    rfl
  · simp only [fill_slot, after_dev_read, after_dev_write]
    rw [← hdev, Function.update_eq_self]

/-- Witness for C18: a full two-slot cache (addresses 0 and 1, address 0 read last)
and address 2, of which the store holds the empty block. -/
theorem write_miss_inserts_as_read_miss_witness :
    (lookup (state_after (fresh 2) (scenario.take 3)) 2).2 = false ∧
    (state_after (fresh 2) (scenario.take 3)).below.data 2 = [] ∧
    cachedisk_read (state_after (fresh 2) (scenario.take 3)) 2 [9]
      = Result.ret 0 (state_after (fresh 2) (scenario.take 3 ++ [Op.read 2 [9]])) [] ∧
    cachedisk_write (state_after (fresh 2) (scenario.take 3)) 2 []
      = Result.ret 0 (state_after (fresh 2) (scenario.take 3 ++ [Op.write 2 []])) [] ∧
    bindings (state_after (fresh 2) (scenario.take 3 ++ [Op.read 2 [9]])) = [0, 2] ∧
    bindings (state_after (fresh 2) (scenario.take 3 ++ [Op.write 2 []])) = [0, 2] ∧
    (state_after (fresh 2) (scenario.take 3 ++ [Op.read 2 [9]])).ages
      = (state_after (fresh 2) (scenario.take 3 ++ [Op.write 2 []])).ages :=
  ⟨by decide, by decide, rfl, rfl, by decide, by decide,
    (write_miss_inserts_as_read_miss (state_after (fresh 2) (scenario.take 3)) 2 [] [9] 0 0
      (state_after (fresh 2) (scenario.take 3 ++ [Op.read 2 [9]]))
      (state_after (fresh 2) (scenario.take 3 ++ [Op.write 2 []])) [] []
      (by decide) (by decide) rfl rfl).2.2.2.2.1⟩

/-! ## Failures of the store below -/

theorem dev_read_status (b : block_store_t) (a : block_no) (buf : block_t) :
    (b.read a buf).1 < 0 ↔ b.rd_ok a = false := by
  unfold block_store_t.read
  cases h : b.rd_ok a <;> simp

theorem dev_write_status (b : block_store_t) (a : block_no) (v : block_t) :
    (b.write a v).1 < 0 ↔ b.wr_ok a = false := by
  unfold block_store_t.write
  cases h : b.wr_ok a <;> simp

/-- C11, evaluated where it fails.  `cachedisk_read` calls `panic` if and only if the
traversal does not find the address and the read of the store below returns a negative
status; `cachedisk_write` calls `panic` if and only if the write of the store below
returns a negative status; a call that returns returns status 0.  In the other cases
the call returns on every read hit, and on a read miss or a write when the cache has
between 1 and `2^31` slots.  With capacity 0 it does not: on a fresh cache of capacity
0 the read and the write of address 7, which the store below answers with status 0, do
not reach `panic` and do not return, they store outside the arrays.  Nor does the read
of an address that is not cached on the full cache `huge_state` of `2^31 + 1` slots,
where `find_LRU_index` returns `-2^31`. -/
theorem device_failure_is_panic (cs : cachedisk_state) (a : block_no) (buf v : block_t) :
    ((∃ s, cachedisk_read cs a buf = Result.panic s) ↔
      ((lookup cs a).2 = false ∧ (cs.below.read a buf).1 < 0)) ∧
    ((∃ s, cachedisk_write cs a v = Result.panic s) ↔ (cs.below.write a v).1 < 0) ∧
    (∀ st s out, cachedisk_read cs a buf = Result.ret st s out → st = 0) ∧
    (∀ st s out, cachedisk_write cs a v = Result.ret st s out → st = 0) ∧
    ((lookup cs a).2 = true → ∃ s out, cachedisk_read cs a buf = Result.ret 0 s out) ∧
    (¬ (cs.below.read a buf).1 < 0 → 0 < cs.nblocks → cs.nblocks ≤ 2147483648 →
      ∃ s out, cachedisk_read cs a buf = Result.ret 0 s out) ∧
    (¬ (cs.below.write a v).1 < 0 → 0 < cs.nblocks → cs.nblocks ≤ 2147483648 →
      ∃ s out, cachedisk_write cs a v = Result.ret 0 s out) ∧
    ((fresh 0).below.read 7 []).1 = 0 ∧
    (cachedisk_read (fresh 0) 7 []).panicked = false ∧
    (cachedisk_read (fresh 0) 7 []).out = none ∧
    (cachedisk_read (fresh 0) 7 []).faulted = true ∧
    ((fresh 0).below.write 7 [1]).1 = 0 ∧
    (cachedisk_write (fresh 0) 7 [1]).panicked = false ∧
    (cachedisk_write (fresh 0) 7 [1]).out = none ∧
    (cachedisk_write (fresh 0) 7 [1]).faulted = true ∧
    (huge_state.below.read 4294967294 []).1 = 0 ∧
    (cachedisk_read huge_state 4294967294 []).panicked = false ∧
    (cachedisk_read huge_state 4294967294 []).out = none ∧
    (cachedisk_read huge_state 4294967294 []).faulted = true := by
  rw [dev_read_status, dev_write_status]
  refine ⟨?_, ?_, fun st s out h => (read_ret_cases h).1,
    fun st s out h => (write_ret_cases h).1, fun hl => ⟨_, _, read_hit_eq buf hl⟩, ?_, ?_,
    by decide, by decide, by decide, by decide, by decide, by decide, by decide, by decide,
    rfl, by rw [huge_state_read_eq]; rfl, by rw [huge_state_read_eq]; rfl,
    by rw [huge_state_read_eq]; rfl⟩
  · cases hl : (lookup cs a).2 with
    | true =>
      rw [read_hit_eq buf hl]
      constructor
      · rintro ⟨s, h⟩
        cases h
      · rintro ⟨h, _⟩
        cases h
    | false =>
      cases hd : cs.below.rd_ok a with
      | false =>
        rw [read_miss_fail_eq buf hl hd]
        exact ⟨fun _ => ⟨rfl, rfl⟩, fun _ => ⟨_, rfl⟩⟩
      | true =>
        rw [read_miss_ok_eq buf hl hd, insert_block]
        constructor
        · rintro ⟨s, h⟩
          split at h <;> cases h
        · rintro ⟨_, h⟩
          cases h
  · cases hd : cs.below.wr_ok a with
    | false =>
      cases hl : (lookup cs a).2 with
      | true =>
        rw [write_hit_fail_eq v hl hd]
        exact ⟨fun _ => rfl, fun _ => ⟨_, rfl⟩⟩
      | false =>
        rw [write_miss_fail_eq v hl hd]
        exact ⟨fun _ => rfl, fun _ => ⟨_, rfl⟩⟩
    | true =>
      constructor
      · rintro ⟨s, h⟩
        cases hl : (lookup cs a).2 with
        | true =>
          rw [write_hit_ok_eq v hl hd] at h
          cases h
        | false =>
          rw [write_miss_ok_eq v hl hd, insert_block] at h
          split at h <;> cases h
      · intro h
        cases h
  · intro hd hpos hle
    have hd1 : cs.below.rd_ok a = true := by
      cases h : cs.below.rd_ok a with
      | false => exact absurd h hd
      | true => rfl
    cases hl : (lookup cs a).2 with
    | true => exact ⟨_, _, read_hit_eq buf hl⟩
    | false =>
      refine ⟨fill_slot (after_dev_read cs a) (victim (after_dev_read cs a)) a
        (cs.below.data a), cs.below.data a, ?_⟩
      rw [read_miss_ok_eq buf hl hd1, insert_block,
        if_pos (can_store_of_bounds (after_dev_read cs a) hpos hle)]
  · intro hd hpos hle
    have hd1 : cs.below.wr_ok a = true := by
      cases h : cs.below.wr_ok a with
      | false => exact absurd h hd
      | true => rfl
    cases hl : (lookup cs a).2 with
    | true => exact ⟨_, _, write_hit_ok_eq v hl hd1⟩
    | false =>
      refine ⟨fill_slot (after_dev_write cs a v) (victim (after_dev_write cs a v)) a v,
        v, ?_⟩
      rw [write_miss_ok_eq v hl hd1, insert_block,
        if_pos (can_store_of_bounds (after_dev_write cs a v) hpos hle)]

/-- C12, evaluated where it fails.  When the write of the store below fails on a
miss, `panic` is reached with `metadata`, `blocks` and `ages` as they were.  When it
fails on a hit, `panic` is reached with the block already copied into the slot found,
the store below still holding the old block.  On a one-slot cache over a store that
answers reads and refuses writes, after `read(5)` has cached the store's block `[]`,
`write(5, [1])` reaches `panic` with `[1]` in slot 0 and `[]` at address 5 of the
store. -/
theorem failed_write_cache_state (cs : cachedisk_state) (a : block_no) (v : block_t) :
    ((lookup cs a).2 = false → (cs.below.write a v).1 < 0 →
      (cachedisk_write cs a v).panicked = true ∧
      (cachedisk_write cs a v).cs.metadata = cs.metadata ∧
      (cachedisk_write cs a v).cs.blocks = cs.blocks ∧
      (cachedisk_write cs a v).cs.ages = cs.ages ∧
      (cachedisk_write cs a v).cs.below.data = cs.below.data) ∧
    ((lookup cs a).2 = true → (cs.below.write a v).1 < 0 →
      (cachedisk_write cs a v).panicked = true ∧
      (cachedisk_write cs a v).cs.metadata = cs.metadata ∧
      (cachedisk_write cs a v).cs.blocks = Function.update cs.blocks (lookup cs a).1 v ∧
      (cachedisk_write cs a v).cs.ages = cs.ages ∧
      (cachedisk_write cs a v).cs.below.data = cs.below.data) ∧
    (run (cachedisk_init readonly_store (fun _ => []) 1) [Op.read 5 []]).map
        (fun s => (bindings s, contents s, s.below.data 5)) = some ([5], [[]], []) ∧
    (run (cachedisk_init readonly_store (fun _ => []) 1) [Op.read 5 []]).map
        (fun s => ((cachedisk_write s 5 [1]).panicked,
                   bindings (cachedisk_write s 5 [1]).cs,
                   contents (cachedisk_write s 5 [1]).cs,
                   (cachedisk_write s 5 [1]).cs.below.data 5))
      = some (true, [5], [[1]], []) := by
  refine ⟨?_, ?_, by decide, by decide⟩
  · intro hl hd
    rw [dev_write_status] at hd
    rw [write_miss_fail_eq v hl hd]
    exact ⟨rfl, rfl, rfl, rfl, rfl⟩
  · intro hl hd
    rw [dev_write_status] at hd
    rw [write_hit_fail_eq v hl hd]
    exact ⟨rfl, rfl, rfl, rfl, rfl⟩

/-! ## Slot indices and capacity -/

theorem target_lt_of_pos (cs : cachedisk_state) (op : Op) (h : 0 < cs.nblocks) :
    target cs op < cs.nblocks := by
  unfold target
  split
  · rename_i hl
    exact (lookup_hit hl).1
  · exact victim_lt_of_pos cs h

/-- With between 1 and `2^31` slots the index a request assigns at is the index of a
slot, the slot `target`. -/
theorem store_index_of_bounds (cs : cachedisk_state) (op : Op) (h1 : 0 < cs.nblocks)
    (h2 : cs.nblocks ≤ 2147483648) :
    0 ≤ store_index cs op ∧ store_index cs op < (cs.nblocks : Int) ∧
    store_index cs op = (target cs op : Int) := by
  have ht := target_lt_of_pos cs op h1
  have he : store_index cs op = (target cs op : Int) := by
    unfold store_index target victim
    cases hl : (lookup cs op.offset).2 with
    | true => rfl
    | false =>
      cases hf : (find_empty cs).2 with
      | true => rfl
      | false =>
        have hlt : find_LRU_least cs < 2147483648 := by
          have := (find_LRU_least_spec cs h1).1
          omega
        simp only [Bool.false_eq_true, if_false]
        rw [lru_toNat cs hlt]
        exact find_LRU_index_of_bounds cs h1 h2
  rw [he]
  exact ⟨by omega, by omega, rfl⟩

theorem huge_state_store_index :
    store_index huge_state (Op.read 4294967294 []) = -2147483648 := by
  have hl : (lookup huge_state 4294967294).2 = false :=
    huge_state_lookup_miss (by omega)
  have hm : (lookup huge_state NO_BLOCK).2 = false :=
    huge_state_lookup_miss (by unfold NO_BLOCK; omega)
  have hf : (find_empty huge_state).2 = false := by
    rw [find_empty_eq_lookup]
    exact hm
  have ho : (Op.read 4294967294 []).offset = 4294967294 := rfl
  unfold store_index
  rw [ho, hl, hf]
  simp only [Bool.false_eq_true, if_false]
  unfold find_LRU_index
  rw [huge_state_least]
  decide

theorem num_occupied_le (cs : cachedisk_state) : num_occupied cs ≤ cs.nblocks := by
  unfold num_occupied
  calc ((List.range cs.nblocks).filter (fun i => decide (cs.metadata i ≠ NO_BLOCK))).length
      ≤ (List.range cs.nblocks).length := List.length_filter_le _ _
    _ = cs.nblocks := List.length_range _

/-- C14, evaluated where it fails.  With at least one slot, the slot `target` (the hit
index, the first empty index or the slot for the number returned by `find_LRU_index`)
is less than the capacity, and the number of occupied slots never exceeds the
capacity; with between 1 and `2^31` slots the index a read or write assigns at, as the
code holds it, is not negative, less than the capacity and equal to `target`.  With
capacity 0 every request is a miss, no slot is empty, `find_LRU_index` returns 0, and
the request stores into slot 0, which is not less than the capacity: the read of
address 7 on a fresh cache of capacity 0 ends outside the arrays.  On the full cache
`huge_state` of `2^31 + 1` slots the read of an address that is not cached assigns at
index `-2^31`, the number `find_LRU_index` returns there. -/
theorem capacity_bound_and_zero_capacity :
    (∀ (cs : cachedisk_state) (op : Op), 0 < cs.nblocks → target cs op < cs.nblocks) ∧
    (∀ (cs : cachedisk_state), num_occupied cs ≤ cs.nblocks) ∧
    (fresh 0).nblocks = 0 ∧
    (lookup (fresh 0) 7).2 = false ∧
    (find_empty (fresh 0)).2 = false ∧
    find_LRU_index (fresh 0) = 0 ∧
    target (fresh 0) (Op.read 7 []) = 0 ∧
    (cachedisk_read (fresh 0) 7 []).faulted = true ∧
    (cachedisk_write (fresh 0) 7 [1]).faulted = true ∧
    (∀ (cs : cachedisk_state) (op : Op), 0 < cs.nblocks → cs.nblocks ≤ 2147483648 →
      0 ≤ store_index cs op ∧ store_index cs op < (cs.nblocks : Int) ∧
      store_index cs op = (target cs op : Int)) ∧
    store_index (fresh 0) (Op.read 7 []) = 0 ∧
    store_index huge_state (Op.read 4294967294 []) = -2147483648 :=
  ⟨target_lt_of_pos, num_occupied_le, by decide, by decide, by decide, by decide, by decide,
    by decide, by decide, store_index_of_bounds, by decide, huge_state_store_index⟩

/-! ## The fresh cache -/

/-- On a table that holds `m` everywhere the traversal for another address runs to the
end. -/
theorem scan_const {m a : block_no} (h : m ≠ a) (fuel i : Nat) :
    scan (fun _ => m) a i fuel = (i + fuel, false) := by
  obtain ⟨h1, h2⟩ := scan_spec (fun _ => m) a fuel i
  cases hb : (scan (fun _ => m) a i fuel).2 with
  | true => exact absurd (h1 hb).2.2.1 h
  | false => exact Prod.ext (h2 hb).1 hb

theorem lookup_init {a : block_no} (h : a ≠ NO_BLOCK) (below : block_store_t)
    (blocks : Nat → block_t) (nblocks : Nat) :
    lookup (cachedisk_init below blocks nblocks) a = (nblocks, false) := by
  have := scan_const (Ne.symm h) nblocks 0
  simpa [lookup, cachedisk_init] using this

/-- C17, amended. On a freshly initialised cache the traversal reports "not found" for
every address other than the empty marker `2^32 - 1`; so the first read of such an
address is counted as a read miss (and not as a hit), reads the store below and, when
it returns, hands back the store's block; and the first write of such an address is
counted as a write miss (and not as a hit). -/
theorem fresh_lookup_misses (below : block_store_t) (blocks : Nat → block_t)
    (nblocks : Nat) (a : block_no) (buf v : block_t) (ha : a ≠ NO_BLOCK) :
    lookup (cachedisk_init below blocks nblocks) a = (nblocks, false) ∧
    stats (cachedisk_read (cachedisk_init below blocks nblocks) a buf).cs = (0, 1, 0, 0) ∧
    (cachedisk_read (cachedisk_init below blocks nblocks) a buf).cs.below.calls
      = below.calls ++ [dev_call.rd a] ∧
    (∀ st s out, cachedisk_read (cachedisk_init below blocks nblocks) a buf
        = Result.ret st s out → out = below.data a) ∧
    stats (cachedisk_write (cachedisk_init below blocks nblocks) a v).cs = (0, 0, 0, 1) := by
  have hl := lookup_init ha below blocks nblocks
  have hl2 : (lookup (cachedisk_init below blocks nblocks) a).2 = false := by rw [hl]
  obtain ⟨r1, r2, r3⟩ := read_counters (cachedisk_init below blocks nblocks) a buf
  obtain ⟨w1, w2, w3⟩ := write_counters (cachedisk_init below blocks nblocks) a v
  rw [hl2] at r1 w1
  simp only [Bool.false_eq_true, if_false] at r1 w1
  refine ⟨hl, ?_, ?_, ?_, ?_⟩
  · simp only [stats, r1.1, r1.2, r2, r3]
    rfl
  · cases hd : below.rd_ok a with
    | false =>
      rw [read_miss_fail_eq buf hl2 hd]
      rfl
    | true =>
      rw [read_miss_ok_eq buf hl2 hd, insert_block]
      split <;> rfl
  · intro st s out h
    obtain ⟨_, h4⟩ := read_ret_cases h
    rcases h4 with ⟨hh, _, _⟩ | ⟨_, _, _, _, ho⟩
    · rw [hl2] at hh
      cases hh
    · exact ho
  · simp only [stats, w1.1, w1.2, w2, w3]
    rfl

/-- Witness for C17: address 7 on a fresh two-slot cache. -/
theorem fresh_lookup_misses_witness :
    (7 : block_no) ≠ NO_BLOCK ∧
    lookup (cachedisk_init (ideal_store (fun _ => [])) (fun _ => []) 2) 7 = (2, false) :=
  ⟨by decide,
    (fresh_lookup_misses (ideal_store (fun _ => [])) (fun _ => []) 2 7 [] [] (by decide)).1⟩

/-- Counterexample to C17 as stated, at the address `2^32 - 1` that marks an empty
slot.  On a fresh one-slot cache whose memory holds the block `[42]`, the traversal
for that address stops at slot 0; the first read is counted as a read hit, makes no
call on the store below and hands back `[42]`, and the first write is counted as a
write hit. -/
theorem fresh_lookup_finds_empty_marker :
    lookup (cachedisk_init (ideal_store (fun _ => [])) (fun _ => [42]) 1) 4294967295
      = (0, true) ∧
    stats (cachedisk_read (cachedisk_init (ideal_store (fun _ => [])) (fun _ => [42]) 1)
        4294967295 []).cs = (1, 0, 0, 0) ∧
    (cachedisk_read (cachedisk_init (ideal_store (fun _ => [])) (fun _ => [42]) 1)
        4294967295 []).cs.below.calls = [] ∧
    (cachedisk_read (cachedisk_init (ideal_store (fun _ => [])) (fun _ => [42]) 1)
        4294967295 []).out = some [42] ∧
    stats (cachedisk_write (cachedisk_init (ideal_store (fun _ => [])) (fun _ => [42]) 1)
        4294967295 [1]).cs = (0, 0, 1, 0) :=
  ⟨by decide, by decide, by decide, by decide, by decide⟩

/-! ## Transparency -/

theorem read_returns {cs : cachedisk_state} {a : block_no} (buf : block_t)
    (hd : cs.below.rd_ok a = true) (hpos : 0 < cs.nblocks)
    (hle : cs.nblocks ≤ 2147483648) :
    ∃ s out, cachedisk_read cs a buf = Result.ret 0 s out := by
  cases hl : (lookup cs a).2 with
  | true => exact ⟨_, _, read_hit_eq buf hl⟩
  | false =>
    refine ⟨fill_slot (after_dev_read cs a) (victim (after_dev_read cs a)) a
      (cs.below.data a), cs.below.data a, ?_⟩
    rw [read_miss_ok_eq buf hl hd, insert_block,
      if_pos (can_store_of_bounds (after_dev_read cs a) hpos hle)]

theorem write_returns {cs : cachedisk_state} {a : block_no} (v : block_t)
    (hd : cs.below.wr_ok a = true) (hpos : 0 < cs.nblocks)
    (hle : cs.nblocks ≤ 2147483648) :
    ∃ s out, cachedisk_write cs a v = Result.ret 0 s out := by
  cases hl : (lookup cs a).2 with
  | true => exact ⟨_, _, write_hit_ok_eq v hl hd⟩
  | false =>
    refine ⟨fill_slot (after_dev_write cs a v) (victim (after_dev_write cs a v)) a v,
      v, ?_⟩
    rw [write_miss_ok_eq v hl hd, insert_block,
      if_pos (can_store_of_bounds (after_dev_write cs a v) hpos hle)]

/-- From a coherent state, the reads of a run hand back what the store alone would,
and the store ends with the contents the writes alone give it. -/
theorem run_reads_direct : ∀ (ops : List Op) {cs s : cachedisk_state} {outs : List block_t},
    no_duplicate cs → coherent cs → (∀ op, op ∈ ops → op.offset ≠ NO_BLOCK) →
    run_reads cs ops = some (s, outs) →
    outs = (direct_run cs.below.data ops).2 ∧ s.below.data = (direct_run cs.below.data ops).1 := by
  intro ops
  induction ops with
  | nil =>
    intro cs s outs _ _ _ h
    simp only [run_reads, Option.some.injEq, Prod.mk.injEq] at h
    obtain ⟨h1, h2⟩ := h
    subst h1
    subst h2
    exact ⟨rfl, rfl⟩
  | cons op ops ih =>
    intro cs s outs hn hc haddr h
    have hrest : ∀ o, o ∈ ops → o.offset ≠ NO_BLOCK :=
      fun o ho => haddr o (List.mem_cons_of_mem _ ho)
    cases op with
    | read a b =>
      have ha : a ≠ NO_BLOCK := haddr (Op.read a b) (List.mem_cons_self _ _)
      simp only [run_reads] at h
      split at h
      · rename_i st s1 out he
        have hstep : step cs (Op.read a b) = Result.ret st s1 out := he
        split at h
        · rename_i s' outs' hr
          simp only [Option.some.injEq, Prod.mk.injEq] at h
          obtain ⟨h1, h2⟩ := h
          subst h1
          subst h2
          obtain ⟨i1, i2⟩ := ih (step_no_duplicate hn hstep) (step_coherent hn hc hstep)
            hrest hr
          have hdata : s1.below.data = cs.below.data := step_data hstep
          have hout := (read_of_coherent b ha hc).2 st s1 out he
          rw [hdata] at i1 i2
          simp only [direct_run]
          exact ⟨by rw [hout, i1], i2⟩
        · cases h
      · cases h
    | write a b =>
      simp only [run_reads] at h
      split at h
      · rename_i st s1 out he
        have hstep : step cs (Op.write a b) = Result.ret st s1 out := he
        obtain ⟨i1, i2⟩ := ih (step_no_duplicate hn hstep) (step_coherent hn hc hstep)
          hrest h
        have hdata : s1.below.data = Function.update cs.below.data a b := step_data hstep
        rw [hdata] at i1 i2
        simp only [direct_run]
        exact ⟨i1, i2⟩
      · cases h

/-- Over a store that answers every request, a cache with between 1 and `2^31` slots
lets every run return. -/
theorem run_reads_returns : ∀ (ops : List Op) (cs : cachedisk_state),
    0 < cs.nblocks → cs.nblocks ≤ 2147483648 →
    (∀ a, cs.below.rd_ok a = true) → (∀ a, cs.below.wr_ok a = true) →
    ∃ s outs, run_reads cs ops = some (s, outs) := by
  intro ops
  induction ops with
  | nil => exact fun cs _ _ _ _ => ⟨cs, [], rfl⟩
  | cons op ops ih =>
    intro cs hpos hle hr hw
    cases op with
    | read a b =>
      obtain ⟨s1, out, he⟩ := read_returns b (hr a) hpos hle
      have hstep : step cs (Op.read a b) = Result.ret 0 s1 out := he
      obtain ⟨f1, f2, f3, _⟩ := step_frame hstep
      obtain ⟨s, outs, hrun⟩ := ih s1 (by rw [f1]; exact hpos) (by rw [f1]; exact hle)
        (by rw [f2]; exact hr) (by rw [f3]; exact hw)
      exact ⟨s, out :: outs, by simp only [run_reads, he, hrun]⟩
    | write a b =>
      obtain ⟨s1, out, he⟩ := write_returns b (hw a) hpos hle
      have hstep : step cs (Op.write a b) = Result.ret 0 s1 out := he
      obtain ⟨f1, f2, f3, _⟩ := step_frame hstep
      obtain ⟨s, outs, hrun⟩ := ih s1 (by rw [f1]; exact hpos) (by rw [f1]; exact hle)
        (by rw [f2]; exact hr) (by rw [f3]; exact hw)
      exact ⟨s, outs, by simp only [run_reads, he, hrun]⟩

/-- C19. Transparency of the cache: take any capacity `≥ 1` and any sequence of reads
and writes whose addresses all differ from the empty marker `2^32 - 1`.  Whenever the
sequence, run from `cachedisk_init`, returns at every call, each `cachedisk_read` has
handed back the block a direct read of the store would hand back at that point, and
the final contents of the store are those the same writes give when applied to the
store directly.  Over a store that answers every request, and with a capacity of at
most `2^31`, for which the `int` that `find_LRU_index` returns is the index it found,
the sequence does return at every call. -/
theorem cache_is_transparent (below : block_store_t) (blocks : Nat → block_t)
    (nblocks : Nat) (ops : List Op)
    (hcap : 1 ≤ nblocks)
    (haddr : ∀ op, op ∈ ops → op.offset ≠ NO_BLOCK) :
    (∀ s outs, run_reads (cachedisk_init below blocks nblocks) ops = some (s, outs) →
      outs = (direct_run below.data ops).2 ∧ s.below.data = (direct_run below.data ops).1) ∧
    (nblocks ≤ 2147483648 → (∀ a, below.rd_ok a = true) → (∀ a, below.wr_ok a = true) →
      ∃ s outs, run_reads (cachedisk_init below blocks nblocks) ops = some (s, outs)) :=
  ⟨fun _ _ h => run_reads_direct ops (init_no_duplicate below blocks nblocks)
      (init_coherent below blocks nblocks) haddr h,
    fun hle hr hw =>
      run_reads_returns ops (cachedisk_init below blocks nblocks) hcap hle hr hw⟩

/-- Witness for C19: the two-slot scenario, whose three reads hand back "A", "B", "A"
with and without the cache. -/
theorem cache_is_transparent_witness :
    (1 ≤ 2) ∧
    (∀ op, op ∈ scenario → op.offset ≠ NO_BLOCK) ∧
    (run_reads (cachedisk_init (ideal_store (fun _ => [])) (fun _ => []) 2) scenario).map
        Prod.snd = some [[65], [66], [65]] ∧
    (direct_run (fun _ => []) scenario).2 = [[65], [66], [65]] ∧
    ((∀ s outs,
        run_reads (cachedisk_init (ideal_store (fun _ => [])) (fun _ => []) 2) scenario
          = some (s, outs) →
        outs = (direct_run (ideal_store (fun _ => [])).data scenario).2 ∧
        s.below.data = (direct_run (ideal_store (fun _ => [])).data scenario).1) ∧
     (2 ≤ 2147483648 → (∀ a, (ideal_store (fun _ => [])).rd_ok a = true) →
      (∀ a, (ideal_store (fun _ => [])).wr_ok a = true) →
        ∃ s outs,
          run_reads (cachedisk_init (ideal_store (fun _ => [])) (fun _ => []) 2) scenario
            = some (s, outs))) :=
  ⟨by decide, by decide, by decide, by decide,
    cache_is_transparent (ideal_store (fun _ => [])) (fun _ => []) 2 scenario
      (by decide) (by decide)⟩

/-! ## Recency stamps -/

/-- Every returned request stores into the slot `target`: it leaves the slot bound to
the address of the request and stamps it with the sum of the four counters, taken
after the request's own increment, on `unsigned int`; the sum has grown by one modulo
`2^32`. -/
theorem step_target {cs s1 : cachedisk_state} {op : Op} {st : Int} {out : block_t}
    (h : step cs op = Result.ret st s1 out) :
    target cs op < cs.nblocks ∧
    s1.nblocks = cs.nblocks ∧
    s1.metadata = Function.update cs.metadata (target cs op) op.offset ∧
    s1.ages = Function.update cs.ages (target cs op) (stamp s1) ∧
    stamp s1 = (stamp cs + 1) % UINT_RANGE := by
  cases op with
  | read a b =>
    have ho : (Op.read a b).offset = a := rfl
    obtain ⟨_, h4⟩ := read_ret_cases h
    rcases h4 with ⟨hl, rfl, _⟩ | ⟨hl, _, hv, rfl, _⟩
    · obtain ⟨l1, l2, _⟩ := lookup_hit hl
      have ht : target cs (Op.read a b) = (lookup cs a).1 := by
        simp [target, ho, hl]
      rw [ht, ho]
      refine ⟨l1, rfl, ?_, rfl, ?_⟩
      · have e := Function.update_eq_self (lookup cs a).1 cs.metadata
        rw [l2] at e
        exact e.symm
      · simp only [after_read_hit, stamp, incr, UINT_RANGE]
        omega
    · have ht : target cs (Op.read a b) = victim cs := by
        simp [target, ho, hl]
      rw [ht, ho]
      refine ⟨hv, rfl, rfl, rfl, ?_⟩
      simp only [fill_slot, after_dev_read, stamp, incr, UINT_RANGE]
      omega
  | write a b =>
    have ho : (Op.write a b).offset = a := rfl
    obtain ⟨_, _, _, h4⟩ := write_ret_cases h
    rcases h4 with ⟨hl, rfl⟩ | ⟨hl, hv, rfl⟩
    · obtain ⟨l1, l2, _⟩ := lookup_hit hl
      have ht : target cs (Op.write a b) = (lookup cs a).1 := by
        simp [target, ho, hl]
      rw [ht, ho]
      refine ⟨l1, rfl, ?_, rfl, ?_⟩
      · have e := Function.update_eq_self (lookup cs a).1 cs.metadata
        rw [l2] at e
        exact e.symm
      · simp only [after_write_hit, stamp, incr, UINT_RANGE]
        omega
    · have ht : target cs (Op.write a b) = victim cs := by
        simp [target, ho, hl]
      rw [ht, ho]
      refine ⟨hv, rfl, rfl, rfl, ?_⟩
      simp only [fill_slot, after_dev_write, stamp, incr, UINT_RANGE]
      omega

/-- The stamp a returned request has stored is the stamp of the state it returns. -/
theorem stored_stamp_eq {cs s1 : cachedisk_state} {op : Op} {st : Int} {out : block_t}
    (h : step cs op = Result.ret st s1 out) :
    s1.ages (target cs op) = stamp s1 := by
  rw [(step_target h).2.2.2.1, Function.update_same]

/-- While the sum of the counters stays below `2^32`, the requests of a run store
consecutive stamps. -/
theorem stamp_log_range : ∀ (ops : List Op) {cs s : cachedisk_state} (c : Nat),
    run cs ops = some s → stamp cs = c → c + ops.length < UINT_RANGE →
    stamp_log cs ops = List.range' (c + 1) ops.length := by
  intro ops
  induction ops with
  | nil =>
    intro cs s c _ _ _
    rfl
  | cons op ops ih =>
    intro cs s c hrun hc hlen
    obtain ⟨st, s1, out, h1, h2⟩ := run_cons_some hrun
    have hs1 : stamp s1 = c + 1 := by
      rw [(step_target h1).2.2.2.2, hc]
      apply Nat.mod_eq_of_lt
      simp only [List.length_cons] at hlen
      omega
    have hrest := ih (c + 1) h2 hs1 (by simp only [List.length_cons] at hlen; omega)
    simp only [stamp_log, h1, List.length_cons, List.range'_succ]
    rw [stored_stamp_eq h1, hs1, hrest]

/-- C13, amended. The stamp each read or write that returns stores in `ages` is
`read_hit + read_miss + write_hit + write_miss` taken after that call's own increment,
computed on the 32-bit unsigned counters.  In every run of fewer than `2^32` requests
from `cachedisk_init` the request number `n` stores the stamp `n`, so each stamp is
strictly greater than every stamp stored by an earlier request and none is reused. -/
theorem stamps_increase (below : block_store_t) (blocks : Nat → block_t) (nblocks : Nat)
    (ops : List Op) (s : cachedisk_state)
    (hrun : run (cachedisk_init below blocks nblocks) ops = some s)
    (hlen : ops.length < 4294967296) :
    (∀ (cs s1 : cachedisk_state) (op : Op) (st : Int) (out : block_t),
      step cs op = Result.ret st s1 out →
      s1.ages (target cs op)
        = (s1.read_hit + s1.read_miss + s1.write_hit + s1.write_miss) % 4294967296) ∧
    stamp_log (cachedisk_init below blocks nblocks) ops = List.range' 1 ops.length ∧
    List.Pairwise (fun x y => x < y) (stamp_log (cachedisk_init below blocks nblocks) ops) := by
  have hlog := stamp_log_range ops 0 hrun rfl (by simp only [UINT_RANGE]; omega)
  refine ⟨fun cs s1 op st out h => stored_stamp_eq h, hlog, ?_⟩
  rw [hlog]
  exact List.pairwise_lt_range' 1 ops.length

/-- Witness for C13: the six requests of the two-slot scenario store the stamps 1
to 6. -/
theorem stamps_increase_witness :
    run (cachedisk_init (ideal_store (fun _ => [])) (fun _ => []) 2) scenario
      = some (state_after (fresh 2) scenario) ∧
    scenario.length < 4294967296 ∧
    stamp_log (cachedisk_init (ideal_store (fun _ => [])) (fun _ => []) 2) scenario
      = [1, 2, 3, 4, 5, 6] ∧
    List.Pairwise (fun x y => x < y)
      (stamp_log (cachedisk_init (ideal_store (fun _ => [])) (fun _ => []) 2) scenario) :=
  ⟨rfl, by decide, by decide,
    (stamps_increase (ideal_store (fun _ => [])) (fun _ => []) 2 scenario
      (state_after (fresh 2) scenario) rfl (by decide)).2.2⟩

/-- Counterexample to C13 as stated.  On a fresh two-slot cache the first request,
`write(0, "A")`, stores the stamp 1.  The `2^32 - 1` requests `wrap_pre`, which begin
with it, all return, and the request made next, `read(0)`, the `2^32`-th of the run,
stores the stamp 0: it is smaller than the stamps stored by all earlier requests. -/
theorem stamp_wraps_to_zero :
    wrap_pre.length = 4294967295 ∧
    wrap_pre.take 1 = [Op.write 0 [65]] ∧
    stored_stamp (fresh 2) (Op.write 0 [65]) = some 1 ∧
    (run (fresh 2) wrap_pre).map stamp = some 4294967295 ∧
    (run (fresh 2) wrap_pre).bind (fun s => stored_stamp s (Op.read 0 [])) = some 0 := by
  have hl : (lookup (state_after (fresh 2) [Op.write 0 [65], Op.write 1 [66]]) 0).2 = true := by
    decide
  have h2 : run (fresh 2) [Op.write 0 [65], Op.write 1 [66]]
      = some (state_after (fresh 2) [Op.write 0 [65], Op.write 1 [66]]) := rfl
  have hr := run_replicate_read_hit 0 [] 4294967292
    (state_after (fresh 2) [Op.write 0 [65], Op.write 1 [66]]) hl
  have hsplit : run (fresh 2) wrap_pre
      = run (state_after (fresh 2) [Op.write 0 [65], Op.write 1 [66]])
          (List.replicate (4294967292 + 1) (Op.read 0 [])) := by
    rw [wrap_pre, run_append, h2, Option.some_bind]
  have hrun := hsplit.trans hr
  refine ⟨?_, rfl, by decide, ?_, ?_⟩
  · rw [wrap_pre, List.length_append, List.length_replicate]
    rfl
  · rw [hrun]
    decide
  · rw [hrun]
    decide

theorem last_index_snoc (x i : Nat) : ∀ (l : List Nat),
    last_index (l ++ [x]) i = if x = i then l.length + 1 else last_index l i := by
  intro l
  induction l with
  | nil => simp [last_index]
  | cons y l ih =>
    have e1 : last_index (y :: (l ++ [x])) i
        = if last_index (l ++ [x]) i = 0 then (if y = i then 1 else 0)
          else last_index (l ++ [x]) i + 1 := rfl
    have e2 : last_index (y :: l) i
        = if last_index l i = 0 then (if y = i then 1 else 0)
          else last_index l i + 1 := rfl
    rw [List.cons_append, e1, e2, ih, List.length_cons]
    by_cases h : x = i
    · simp [h]
    · simp [h]

theorem last_index_le_length (i : Nat) : ∀ (l : List Nat), last_index l i ≤ l.length := by
  intro l
  induction l with
  | nil => simp [last_index]
  | cons y l ih =>
    simp only [last_index, List.length_cons]
    split
    · split <;> omega
    · omega

/-- Two slots whose last entries carry the same ordinal number are the same. -/
theorem last_index_inj {i j : Nat} : ∀ (l : List Nat),
    last_index l i = last_index l j → last_index l i ≠ 0 → i = j := by
  intro l
  induction l with
  | nil =>
    intro _ h
    exact absurd rfl h
  | cons y l ih =>
    intro he hne
    simp only [last_index] at he hne
    by_cases ha : last_index l i = 0 <;> by_cases hb : last_index l j = 0
    · rw [if_pos ha] at he hne
      rw [if_pos hb] at he
      by_cases hyi : y = i
      · by_cases hyj : y = j
        · rw [← hyi, ← hyj]
        · rw [if_pos hyi, if_neg hyj] at he
          omega
      · rw [if_neg hyi] at hne
        exact absurd rfl hne
    · rw [if_pos ha] at he
      rw [if_neg hb] at he
      split at he <;> omega
    · rw [if_neg ha] at he
      rw [if_pos hb] at he
      split at he <;> omega
    · rw [if_neg ha] at he
      rw [if_neg hb] at he
      exact ih (by omega) ha

theorem touch_log_length_le : ∀ (ops : List Op) (cs : cachedisk_state),
    (touch_log cs ops).length ≤ ops.length := by
  intro ops
  induction ops with
  | nil => intro cs; simp [touch_log]
  | cons op ops ih =>
    intro cs
    simp only [touch_log]
    split
    · simp only [List.length_cons]
      exact Nat.succ_le_succ (ih _)
    · simp

theorem init_touched (below : block_store_t) (blocks : Nat → block_t) (nblocks : Nat) :
    touched [] (cachedisk_init below blocks nblocks) := by
  refine ⟨rfl, ?_⟩
  intro i hi
  exact absurd rfl hi.2

theorem step_touched {cs s1 : cachedisk_state} {op : Op} {st : Int} {out : block_t}
    {log : List Nat} (ht : touched log cs) (h : step cs op = Result.ret st s1 out) :
    touched (log ++ [target cs op]) s1 := by
  obtain ⟨_, hnb, hmd, hag, hst⟩ := step_target h
  obtain ⟨ht1, ht2⟩ := ht
  have hst2 : stamp s1 = (log.length + 1) % UINT_RANGE := by
    rw [hst, ht1]
    simp only [UINT_RANGE]
    omega
  constructor
  · rw [hst2, List.length_append]
    rfl
  · intro i hi
    obtain ⟨hi1, hi2⟩ := hi
    rw [hnb] at hi1
    rw [hmd] at hi2
    rw [hag, last_index_snoc]
    by_cases hik : i = target cs op
    · rw [hik, Function.update_same, if_pos rfl]
      exact ⟨by omega, hst2⟩
    · rw [Function.update_noteq hik] at hi2 ⊢
      rw [if_neg (Ne.symm hik)]
      exact ht2 i ⟨hi1, hi2⟩

theorem run_touched : ∀ (ops : List Op) (log : List Nat) {cs s : cachedisk_state},
    touched log cs → run cs ops = some s → touched (log ++ touch_log cs ops) s := by
  intro ops
  induction ops with
  | nil =>
    intro log cs s ht h
    simp only [run, Option.some.injEq] at h
    subst h
    simp only [touch_log, List.append_nil]
    exact ht
  | cons op ops ih =>
    intro log cs s ht h
    obtain ⟨st, s1, out, h1, h2⟩ := run_cons_some h
    have := ih (log ++ [target cs op]) (step_touched ht h1) h2
    simp only [touch_log, h1]
    rw [List.append_assoc, List.singleton_append] at this
    exact this

/-- C20. Distinct recencies: in every state reached from `cachedisk_init` by fewer than
`2^32 - 1` reads and writes that all returned, every occupied slot carries in `ages`
the ordinal number of the request that last stored into the slot, any two distinct
occupied slots carry different `ages` values, and hence, when every slot is occupied,
the slot the loop of `find_LRU_index` stops at is the only one of minimum recency; it
is the number the function returns when the capacity is between 1 and `2^31`. -/
theorem distinct_recencies (below : block_store_t) (blocks : Nat → block_t)
    (nblocks : Nat) (ops : List Op) (s : cachedisk_state)
    (hrun : run (cachedisk_init below blocks nblocks) ops = some s)
    (hlen : ops.length < 4294967295) :
    (∀ i, i < s.nblocks → s.metadata i ≠ NO_BLOCK →
      0 < last_touch (cachedisk_init below blocks nblocks) ops i ∧
      s.ages i = last_touch (cachedisk_init below blocks nblocks) ops i) ∧
    (∀ i j, i < s.nblocks → j < s.nblocks → s.metadata i ≠ NO_BLOCK →
      s.metadata j ≠ NO_BLOCK → i ≠ j → s.ages i ≠ s.ages j) ∧
    ((∀ i, i < s.nblocks → s.metadata i ≠ NO_BLOCK) →
      ∀ j, j < s.nblocks → j ≠ find_LRU_least s →
        s.ages (find_LRU_least s) < s.ages j) ∧
    (0 < s.nblocks → s.nblocks ≤ 2147483648 →
      find_LRU_index s = (find_LRU_least s : Int)) := by
  have ht := run_touched ops [] (init_touched below blocks nblocks) hrun
  rw [List.nil_append] at ht
  have hage : ∀ i, i < s.nblocks → s.metadata i ≠ NO_BLOCK →
      0 < last_touch (cachedisk_init below blocks nblocks) ops i ∧
      s.ages i = last_touch (cachedisk_init below blocks nblocks) ops i := by
    intro i hi hocc
    obtain ⟨h1, h2⟩ := ht.2 i ⟨hi, hocc⟩
    refine ⟨Nat.pos_of_ne_zero h1, ?_⟩
    rw [h2]
    apply Nat.mod_eq_of_lt
    have a1 := last_index_le_length i (touch_log (cachedisk_init below blocks nblocks) ops)
    have a2 := touch_log_length_le ops (cachedisk_init below blocks nblocks)
    simp only [UINT_RANGE]
    omega
  have hdist : ∀ i j, i < s.nblocks → j < s.nblocks → s.metadata i ≠ NO_BLOCK →
      s.metadata j ≠ NO_BLOCK → i ≠ j → s.ages i ≠ s.ages j := by
    intro i j hi hj hoi hoj hij he
    obtain ⟨p1, e1⟩ := hage i hi hoi
    obtain ⟨_, e2⟩ := hage j hj hoj
    rw [e1, e2] at he
    exact hij (last_index_inj _ he (Nat.ne_of_gt p1))
  refine ⟨hage, hdist, ?_, find_LRU_index_of_bounds s⟩
  intro hfull j hj hne
  have hpos : 0 < s.nblocks := by omega
  obtain ⟨k1, k2, _⟩ := find_LRU_least_spec s hpos
  rcases Nat.lt_or_eq_of_le (k2 j hj) with hlt | heq
  · exact hlt
  · exact absurd heq (hdist _ _ k1 hj (hfull _ k1) (hfull _ hj) (Ne.symm hne))

/-- Witness for C20: after the first four requests of the two-slot scenario slot 0 was
last stored into by request 3 and slot 1 by request 4. -/
theorem distinct_recencies_witness :
    run (cachedisk_init (ideal_store (fun _ => [])) (fun _ => []) 2) (scenario.take 4)
      = some (state_after (fresh 2) (scenario.take 4)) ∧
    (scenario.take 4).length < 4294967295 ∧
    touch_log (cachedisk_init (ideal_store (fun _ => [])) (fun _ => []) 2) (scenario.take 4)
      = [0, 1, 0, 1] ∧
    recencies (state_after (fresh 2) (scenario.take 4)) = [3, 4] ∧
    (∀ i j, i < (state_after (fresh 2) (scenario.take 4)).nblocks →
      j < (state_after (fresh 2) (scenario.take 4)).nblocks →
      (state_after (fresh 2) (scenario.take 4)).metadata i ≠ NO_BLOCK →
      (state_after (fresh 2) (scenario.take 4)).metadata j ≠ NO_BLOCK → i ≠ j →
      (state_after (fresh 2) (scenario.take 4)).ages i
        ≠ (state_after (fresh 2) (scenario.take 4)).ages j) :=
  ⟨rfl, by decide, by decide, by decide,
    (distinct_recencies (ideal_store (fun _ => [])) (fun _ => []) 2 (scenario.take 4)
      (state_after (fresh 2) (scenario.take 4)) rfl (by decide)).2.1⟩

end CacheDisk
